import Mathlib

/-!
# Verification of `har_parse.py`

A shallow embedding of the core logic of `har_parse.py` (HAR-file JavaScript
extraction and comparison) together with proofs and refutations of the
specification claims.  Strings are modelled as `List Char`; Python regular
expression operations used by the source are modelled as explicit scanning
functions on character lists; `hashlib.md5` is modelled by a full executable
MD5 implementation over byte lists (`Nat` values `< 256`).
-/

set_option maxHeartbeats 1000000

namespace HarParse

/-! ## Python string primitives -/

/-- Python `haystack.find(needle)`: index of the first occurrence of `needle`
in `haystack`, `-1` if absent (`find` of an empty needle is `0`). -/
def pyFind (haystack needle : List Char) : Int :=
  if needle.isPrefixOf haystack then 0
  else
    match haystack with
    | [] => -1
    | _ :: t =>
      let r := pyFind t needle
      if r = -1 then -1 else r + 1

/-- Python `needle in haystack` substring test. -/
def pyContains (haystack needle : List Char) : Bool :=
  pyFind haystack needle != -1

/-- Lower-case a list of characters; models Python `str.lower` (and
`re.IGNORECASE` matching of literal letters) on the ASCII range used by the
program. -/
def lowerAll (cs : List Char) : List Char := cs.map Char.toLower

/-! ## Page-domain detection

`getJS` runs `re.match('^(https://[^/]+)', title, re.IGNORECASE)` over the
page title and keeps `group(1)` when it matches, leaving `page_domain = ""`
otherwise. -/

def httpsLit : List Char := "https://".data

/-- The detected page domain: the title's prefix `https://<host>` (matched
case-insensitively on the scheme, `<host>` a non-empty run of non-`/`
characters), or `[]` when the title does not start that way. -/
def pageDomain (title : List Char) : List Char :=
  if lowerAll (title.take 8) = httpsLit ∧ (title.drop 8).headD '/' ≠ '/' then
    title.take 8 ++ (title.drop 8).takeWhile (· ≠ '/')
  else []

/-! ## Query-string redaction

`url = re.sub('\?.+$', '[qstring redacted]', url)`.  Without `re.MULTILINE`,
`$` matches only at the end of the string or just before a terminal newline,
and `.` does not match `\n`, so the pattern has at most one match: it starts
at the leftmost `?` that is followed by a non-empty newline-free run reaching
the `$` position. -/

def qstringMarker : List Char := "[qstring redacted]".data

/-- Can `\?.+$` match at a `?` immediately followed by `rest`, where `rest`
runs to the `$` position?  (`.+` needs at least one character and `.` does
not match `\n`.) -/
def qtailOk (rest : List Char) : Bool := !rest.isEmpty && rest.all (· != '\n')

/-- Leftmost match position of `\?.+$` in the part of the string before the
`$` position: returns the prefix preceding the matching `?`, if any. -/
def qsub : List Char → Option (List Char)
  | [] => none
  | c :: rest =>
    if c = '?' ∧ qtailOk rest then some []
    else (qsub rest).map (c :: ·)

/-- Models `re.sub('\?.+$', '[qstring redacted]', url)`: replace the match
(if any) by the marker, keeping what lies beyond the `$` position (nothing,
or a terminal newline). -/
def pyQredact (url : List Char) : List Char :=
  if url.getLast? = some '\n' then
    match qsub url.dropLast with
    | some pre => pre ++ qstringMarker ++ ['\n']
    | none => url
  else
    match qsub url with
    | some pre => pre ++ qstringMarker
    | none => url

theorem qsub_nil : qsub [] = none := rfl

theorem qsub_cons_pos {c : Char} {rest : List Char} (h1 : c = '?') (h2 : qtailOk rest = true) :
    qsub (c :: rest) = some [] := by
  unfold qsub
  rw [if_pos ⟨h1, h2⟩]

theorem qsub_cons_neg {c : Char} {rest : List Char} (h : ¬(c = '?' ∧ qtailOk rest = true)) :
    qsub (c :: rest) = (qsub rest).map (c :: ·) := by
  conv_lhs => rw [qsub]
  rw [if_neg h]

theorem qtailOk_false_iff {r : List Char} : qtailOk r = false ↔ r = [] ∨ '\n' ∈ r := by
  cases r with
  | nil => simp [qtailOk]
  | cons a l =>
    have h1 : qtailOk (a :: l) = (a :: l).all (· != '\n') := by
      simp [qtailOk]
    rw [h1]
    constructor
    · intro h
      right
      by_contra hmem
      have hall : (a :: l).all (· != '\n') = true := by
        rw [List.all_eq_true]
        intro x hx
        rw [bne_iff_ne]
        rintro rfl
        exact hmem hx
      rw [hall] at h
      exact absurd h (by simp)
    · rintro (h | h)
      · exact absurd h (by simp)
      · rw [← Bool.not_eq_true, List.all_eq_true]
        intro hall
        have h2 := hall '\n' h
        rw [bne_iff_ne] at h2
        exact h2 rfl

theorem qtailOk_true_iff {r : List Char} : qtailOk r = true ↔ r ≠ [] ∧ '\n' ∉ r := by
  constructor
  · intro h
    have hf : ¬ (qtailOk r = false) := by rw [h]; simp
    rw [qtailOk_false_iff] at hf
    push_neg at hf
    exact hf
  · intro ⟨h1, h2⟩
    cases hq : qtailOk r
    · rcases qtailOk_false_iff.mp hq with h | h
      · exact absurd h h1
      · exact absurd h h2
    · rfl

theorem qsub_eq_some {l p : List Char} (h : qsub l = some p) :
    ∃ r2, l = p ++ '?' :: r2 ∧ qtailOk r2 = true := by
  induction l generalizing p with
  | nil => exact absurd h (by simp [qsub])
  | cons c rest ih =>
    by_cases hc : c = '?' ∧ qtailOk rest = true
    · rw [qsub_cons_pos hc.1 hc.2] at h
      injection h with h'
      exact ⟨rest, by rw [← h', hc.1]; rfl, hc.2⟩
    · rw [qsub_cons_neg hc] at h
      obtain ⟨p', hp', hpp⟩ := Option.map_eq_some'.mp h
      obtain ⟨r2, hr2, hok⟩ := ih hp'
      exact ⟨r2, by rw [← hpp, hr2]; rfl, hok⟩

theorem qsub_cons_none_inv {c : Char} {rest : List Char} (h : qsub (c :: rest) = none) :
    ¬(c = '?' ∧ qtailOk rest = true) ∧ qsub rest = none := by
  by_cases hc : c = '?' ∧ qtailOk rest = true
  · rw [qsub_cons_pos hc.1 hc.2] at h
    exact absurd h (by simp)
  · rw [qsub_cons_neg hc] at h
    exact ⟨hc, Option.map_eq_none'.mp h⟩

theorem qsub_cons_none_intro {c : Char} {rest : List Char}
    (h1 : ¬(c = '?' ∧ qtailOk rest = true)) (h2 : qsub rest = none) :
    qsub (c :: rest) = none := by
  rw [qsub_cons_neg h1, h2]
  rfl

theorem qsub_append_none_inv : ∀ (zs : List Char) {l : List Char},
    qsub (zs ++ l) = none → qsub l = none := by
  intro zs
  induction zs with
  | nil => intro l h; exact h
  | cons z zs ih => intro l h; exact ih (qsub_cons_none_inv h).2

theorem qsub_append_no_q : ∀ (zs : List Char), '?' ∉ zs → ∀ {l : List Char},
    qsub l = none → qsub (zs ++ l) = none := by
  intro zs
  induction zs with
  | nil => intro _ l h; exact h
  | cons z zs ih =>
    intro hz l h
    have hz0 : z ≠ '?' := by
      intro heq
      apply hz
      rw [heq]
      exact List.mem_cons_self '?' zs
    exact qsub_cons_none_intro (fun hc => hz0 hc.1)
      (ih (fun hm => hz (List.mem_cons_of_mem z hm)) h)

/-- After a redaction the string before the marker holds no further match:
every `?` in it is followed by a newline. -/
theorem qsub_append_marker : ∀ {main pre : List Char}, qsub main = some pre →
    qsub (pre ++ qstringMarker) = none := by
  intro main
  induction main with
  | nil => intro pre h; exact absurd h (by simp [qsub])
  | cons c rest ih =>
    intro pre h
    by_cases hc : c = '?' ∧ qtailOk rest = true
    · rw [qsub_cons_pos hc.1 hc.2] at h
      injection h with h'
      rw [← h']
      decide
    · rw [qsub_cons_neg hc] at h
      obtain ⟨p', hp', hpp⟩ := Option.map_eq_some'.mp h
      rw [← hpp]
      apply qsub_cons_none_intro
      · rintro ⟨hcq, hok⟩
        have hrest_f : qtailOk rest = false := by
          cases hqt : qtailOk rest
          · rfl
          · exact absurd ⟨hcq, hqt⟩ hc
        rcases qtailOk_false_iff.mp hrest_f with hnil | hmem
        · rw [hnil] at hp'
          exact absurd hp' (by simp [qsub])
        · obtain ⟨r2, hr2, hokr2⟩ := qsub_eq_some hp'
          have hnp : '\n' ∈ p' := by
            rw [hr2] at hmem
            rcases List.mem_append.mp hmem with h1 | h1
            · exact h1
            · rcases List.mem_cons.mp h1 with h2 | h2
              · exact absurd h2 (by decide)
              · exact absurd h2 (qtailOk_true_iff.mp hokr2).2
          have hok' : qtailOk (p' ++ qstringMarker) = true := hok
          have hfalse : qtailOk (p' ++ qstringMarker) = false :=
            qtailOk_false_iff.mpr (Or.inr (List.mem_append.mpr (Or.inl hnp)))
          rw [hok'] at hfalse
          exact absurd hfalse (by simp)
      · exact ih hp'

/-- The stability invariant guaranteed by the redaction: either the string
ends with a newline and its front holds no match, or it does not and the
whole string holds no match. -/
def qredactStable (z : List Char) : Prop :=
  (z.getLast? = some '\n' ∧ qsub z.dropLast = none) ∨
  (z.getLast? ≠ some '\n' ∧ qsub z = none)

theorem pyQredact_of_stable {z : List Char} (h : qredactStable z) : pyQredact z = z := by
  unfold pyQredact
  rcases h with ⟨h1, h2⟩ | ⟨h1, h2⟩
  · rw [if_pos h1, h2]
  · rw [if_neg h1, h2]

theorem qredactStable_qredact (u : List Char) : qredactStable (pyQredact u) := by
  unfold pyQredact
  by_cases hlast : u.getLast? = some '\n'
  · rw [if_pos hlast]
    cases hq : qsub u.dropLast with
    | some pre =>
      left
      refine ⟨?_, ?_⟩
      · rw [List.getLast?_concat]
      · rw [List.dropLast_concat]
        exact qsub_append_marker hq
    | none => exact Or.inl ⟨hlast, hq⟩
  · rw [if_neg hlast]
    cases hq : qsub u with
    | some pre =>
      right
      have hl : (pre ++ qstringMarker).getLast? = some ']' := by
        rw [show pre ++ qstringMarker = (pre ++ "[qstring redacted".data) ++ [']'] by
          rw [List.append_assoc]; rfl, List.getLast?_concat]
      refine ⟨?_, qsub_append_marker hq⟩
      rw [hl]
      decide
    | none => exact Or.inr ⟨hlast, hq⟩

theorem pyQredact_idem (u : List Char) : pyQredact (pyQredact u) = pyQredact u :=
  pyQredact_of_stable (qredactStable_qredact u)

/-! ## Version-directory rewrites

`re.sub('/version\d+/', '/version9999999999/', url)` and
`re.sub('/v\d+/', '/v9999999999/', url)`, applied on the internal branch of
`getJS`.  Both patterns share the shape `/<lit>\d+/`, so the scanner is
defined once, parameterised by the literal. -/

/-- Does `/<lit>\d+/` match at the start of `cs`?  If so, return what follows
the match (the closing `/` is part of the match and is consumed).  `\d+` is
greedy; digits and `/` are disjoint, so the greedy run is the maximal digit
run, which must be non-empty and followed by `/`. -/
def tryPat (lit : List Char) (cs : List Char) : Option (List Char) :=
  match cs with
  | '/' :: rest =>
    if lit.isPrefixOf rest then
      let rest₁ := rest.drop lit.length
      match rest₁.takeWhile Char.isDigit, rest₁.dropWhile Char.isDigit with
      | [], _ => none
      | _ :: _, '/' :: r => some r
      | _, _ => none
    else none
  | _ => none

def nines : List Char := List.replicate 10 '9'

/-- The replacement text `/<lit>9999999999/`. -/
def patRepl (lit : List Char) : List Char := '/' :: (lit ++ nines) ++ ['/']

theorem takeWhile_append_of_all {p : Char → Bool} {D : List Char} {c : Char} {r : List Char}
    (hall : ∀ a ∈ D, p a) (hc : ¬ p c) :
    (D ++ c :: r).takeWhile p = D ∧ (D ++ c :: r).dropWhile p = c :: r := by
  induction D with
  | nil => simp [List.takeWhile_cons, List.dropWhile_cons, hc]
  | cons d D ih =>
    have hd : p d := hall d (List.mem_cons_self d D)
    have ih' := ih (fun a ha => hall a (List.mem_cons_of_mem d ha))
    simp [List.takeWhile_cons, List.dropWhile_cons, hd, ih'.1, ih'.2]

/-- Characterisation of a `/<lit>\d+/` match at the start of a string. -/
theorem tryPat_some_iff (lit cs r : List Char) :
    tryPat lit cs = some r ↔
      ∃ D, cs = '/' :: (lit ++ (D ++ '/' :: r)) ∧ D ≠ [] ∧ ∀ a ∈ D, a.isDigit := by
  constructor
  · intro h
    unfold tryPat at h
    split at h
    case _ rest =>
      split at h
      case isTrue hp =>
        obtain ⟨t, ht⟩ : lit <+: rest := by
          exact List.isPrefixOf_iff_prefix.mp hp
        have hdrop : rest.drop lit.length = t := by
          rw [← ht, List.drop_left]
        rw [hdrop] at h
        dsimp only at h
        split at h
        case _ heq1 heq2 => exact absurd h (by simp)
        case _ d ds r2 heq1 heq2 =>
          injection h with h'
          subst h'
          refine ⟨d :: ds, ?_, by simp, ?_⟩
          · have : t = (d :: ds) ++ '/' :: r2 := by
              conv_lhs => rw [← List.takeWhile_append_dropWhile Char.isDigit t]
              rw [heq1, heq2]
            rw [← ht, this]
          · intro a ha
            rw [← heq1] at ha
            exact List.mem_takeWhile_imp ha
        case _ heq1 heq2 hne => exact absurd h (by simp)
      case isFalse => exact absurd h (by simp)
    case _ => exact absurd h (by simp)
  · rintro ⟨D, hcs, hD, hall⟩
    subst hcs
    have hsplit := @takeWhile_append_of_all Char.isDigit D '/' r hall (by simp [Char.isDigit])
    simp only [tryPat]
    rw [if_pos (List.isPrefixOf_iff_prefix.mpr (List.prefix_append _ _))]
    simp only [List.drop_left, hsplit.1, hsplit.2]
    match D, hD with
    | d :: ds, _ => rfl

theorem tryPat_length {lit cs r : List Char} (h : tryPat lit cs = some r) :
    r.length < cs.length := by
  obtain ⟨D, hcs, -, -⟩ := (tryPat_some_iff lit cs r).mp h
  subst hcs
  simp only [List.length_cons, List.length_append]
  omega

/-- Recursion core of the scanner, with a fuel bound so that the definition
is structurally recursive (and hence computable by the kernel).  Each step
consumes at least one character, so any fuel of at least the string length
gives the same result (`pySubAux_fuel`). -/
def pySubAux (lit : List Char) : Nat → List Char → List Char
  | _, [] => []
  | 0, cs => cs
  | fuel + 1, c :: rest =>
    match tryPat lit (c :: rest) with
    | some rest' => patRepl lit ++ pySubAux lit fuel rest'
    | none => c :: pySubAux lit fuel rest

/-- Models `re.sub('/<lit>\d+/', '/<lit>9999999999/', s)`: scan left to
right; on a match, emit the replacement and continue after the match;
otherwise copy one character. -/
def pySub (lit cs : List Char) : List Char := pySubAux lit cs.length cs

theorem pySubAux_fuel {lit : List Char} : ∀ n {fuel fuel' : Nat} {cs : List Char},
    cs.length ≤ n → cs.length ≤ fuel → cs.length ≤ fuel' →
    pySubAux lit fuel cs = pySubAux lit fuel' cs := by
  intro n
  induction n using Nat.strong_induction_on with
  | _ n ih =>
    intro fuel fuel' cs hn hf hf'
    cases cs with
    | nil => cases fuel <;> cases fuel' <;> rfl
    | cons c rest =>
      match fuel, hf with
      | f + 1, hf1 =>
        match fuel', hf' with
        | f' + 1, hf1' =>
          simp only [List.length_cons] at hn hf1 hf1'
          show (match tryPat lit (c :: rest) with
            | some rest' => patRepl lit ++ pySubAux lit f rest'
            | none => c :: pySubAux lit f rest) =
            (match tryPat lit (c :: rest) with
            | some rest' => patRepl lit ++ pySubAux lit f' rest'
            | none => c :: pySubAux lit f' rest)
          cases htry : tryPat lit (c :: rest) with
          | some rest' =>
            have hlen := tryPat_length htry
            simp only [List.length_cons] at hlen
            show patRepl lit ++ pySubAux lit f rest' = patRepl lit ++ pySubAux lit f' rest'
            rw [@ih (n - 1) (by omega) f f' rest' (by omega) (by omega) (by omega)]
          | none =>
            show c :: pySubAux lit f rest = c :: pySubAux lit f' rest
            rw [@ih (n - 1) (by omega) f f' rest (by omega) (by omega) (by omega)]

theorem pySub_nil (lit : List Char) : pySub lit [] = [] := rfl

theorem pySub_match {lit : List Char} {c : Char} {rest rest' : List Char}
    (h : tryPat lit (c :: rest) = some rest') :
    pySub lit (c :: rest) = patRepl lit ++ pySub lit rest' := by
  have hlen := tryPat_length h
  simp only [List.length_cons] at hlen
  have hstep : pySub lit (c :: rest) =
      (match tryPat lit (c :: rest) with
      | some r => patRepl lit ++ pySubAux lit rest.length r
      | none => c :: pySubAux lit rest.length rest) := rfl
  rw [hstep, h]
  show patRepl lit ++ pySubAux lit rest.length rest' = patRepl lit ++ pySub lit rest'
  unfold pySub
  rw [pySubAux_fuel rest'.length le_rfl (by omega) le_rfl]

theorem pySub_none {lit : List Char} {c : Char} {rest : List Char}
    (h : tryPat lit (c :: rest) = none) :
    pySub lit (c :: rest) = c :: pySub lit rest := by
  have hstep : pySub lit (c :: rest) =
      (match tryPat lit (c :: rest) with
      | some r => patRepl lit ++ pySubAux lit rest.length r
      | none => c :: pySubAux lit rest.length rest) := rfl
  rw [hstep, h]
  show c :: pySubAux lit rest.length rest = c :: pySub lit rest
  rfl

/-- Induction along the scanner's recursion structure. -/
theorem pySub_induct {lit : List Char} {P : List Char → Prop}
    (case1 : P [])
    (case2 : ∀ c rest rest', tryPat lit (c :: rest) = some rest' → P rest' → P (c :: rest))
    (case3 : ∀ c rest, tryPat lit (c :: rest) = none → P rest → P (c :: rest)) :
    ∀ l, P l := by
  suffices H : ∀ n l, List.length l ≤ n → P l by
    exact fun l => H l.length l le_rfl
  intro n
  induction n using Nat.strong_induction_on with
  | _ n ih =>
    intro l hl
    cases l with
    | nil => exact case1
    | cons c rest =>
      simp only [List.length_cons] at hl
      cases htry : tryPat lit (c :: rest) with
      | some rest' =>
        have hlen := tryPat_length htry
        simp only [List.length_cons] at hlen
        exact case2 c rest rest' htry (ih (n - 1) (by omega) rest' (by omega))
      | none =>
        exact case3 c rest htry (ih (n - 1) (by omega) rest (by omega))

theorem digit_ne_slash {a : Char} (h : a.isDigit = true) : a ≠ '/' := by
  intro heq
  subst heq
  exact absurd h (by decide)

theorem tryPat_ne_slash {lit : List Char} {c : Char} (cs : List Char) (h : c ≠ '/') :
    tryPat lit (c :: cs) = none := by
  cases htry : tryPat lit (c :: cs) with
  | none => rfl
  | some r =>
    obtain ⟨D, hcs, -, -⟩ := (tryPat_some_iff lit (c :: cs) r).mp htry
    exact absurd (List.cons.inj hcs).1 h

/-- Characters that are not `/` are always copied unchanged by the scanner
(every match starts with `/`). -/
theorem pySub_copy {lit zs : List Char} (hz : ∀ a ∈ zs, a ≠ '/') (ys : List Char) :
    pySub lit (zs ++ ys) = zs ++ pySub lit ys := by
  induction zs with
  | nil => simp
  | cons z zs ih =>
    have hz0 : z ≠ '/' := hz z (List.mem_cons_self z zs)
    rw [List.cons_append, pySub_none (tryPat_ne_slash _ hz0),
      ih (fun a ha => hz a (List.mem_cons_of_mem z ha)), List.cons_append]

/-- The scanner's output starts with `/` whenever its input does. -/
theorem pySub_head_slash (lit y : List Char) :
    ∃ W, pySub lit ('/' :: y) = '/' :: W := by
  cases htry : tryPat lit ('/' :: y) with
  | some r =>
    rw [pySub_match htry]
    exact ⟨(lit ++ nines) ++ '/' :: pySub lit r, by simp [patRepl]⟩
  | none => exact ⟨pySub lit y, pySub_none htry⟩

/-- Transfer lemma: a `/`-free prefix of the scanner's output followed by a
`/` comes from the same prefix followed by a `/` in the input. -/
theorem pySub_transfer {lit' : List Char} :
    ∀ xs : List Char, (∀ x ∈ xs, x ≠ '/') → ∀ rest r, pySub lit' rest = xs ++ '/' :: r →
      ∃ r₂, rest = xs ++ '/' :: r₂ := by
  intro xs
  induction xs with
  | nil =>
    intro _ rest r h
    match rest with
    | [] => rw [pySub_nil] at h; exact absurd h (by simp)
    | c :: rest₂ =>
      cases htry : tryPat lit' (c :: rest₂) with
      | some r' =>
        obtain ⟨D, hcs, -, -⟩ := (tryPat_some_iff lit' (c :: rest₂) r').mp htry
        exact ⟨rest₂, by rw [(List.cons.inj hcs).1]; rfl⟩
      | none =>
        rw [pySub_none htry] at h
        exact ⟨rest₂, by rw [(List.cons.inj h).1]; rfl⟩
  | cons x xs ih =>
    intro hx rest r h
    match rest with
    | [] => rw [pySub_nil] at h; exact absurd h (by simp)
    | c :: rest₂ =>
      cases htry : tryPat lit' (c :: rest₂) with
      | some r' =>
        rw [pySub_match htry] at h
        have : ('/' : Char) = x := by
          have := (List.cons.inj h).1
          simpa [patRepl] using this
        exact absurd this.symm (hx x (List.mem_cons_self x xs))
      | none =>
        rw [pySub_none htry] at h
        obtain ⟨hc, htail⟩ := List.cons.inj h
        obtain ⟨r₂, hr₂⟩ := ih (fun a ha => hx a (List.mem_cons_of_mem x ha)) rest₂ r htail
        exact ⟨r₂, by rw [hc, hr₂]; rfl⟩

/-- If no match of `/<lit>\d+/` starts at the head, rewriting the tail with
any `/<lit'>\d+/` substitution cannot create one (provided `lit` is
`/`-free). -/
theorem tryPat_pySub_none {lit lit' : List Char} (hlit : ∀ a ∈ lit, a ≠ '/')
    {c : Char} {rest : List Char} (h : tryPat lit (c :: rest) = none) :
    tryPat lit (c :: pySub lit' rest) = none := by
  cases htry : tryPat lit (c :: pySub lit' rest) with
  | none => rfl
  | some r =>
    obtain ⟨D, hcs, hD, hall⟩ := (tryPat_some_iff lit (c :: pySub lit' rest) r).mp htry
    obtain ⟨hc, htail⟩ := List.cons.inj hcs
    have hxs : ∀ a ∈ lit ++ D, a ≠ '/' := by
      intro a ha
      rcases List.mem_append.mp ha with h1 | h2
      · exact hlit a h1
      · exact digit_ne_slash (hall a h2)
    rw [show lit ++ (D ++ '/' :: r) = (lit ++ D) ++ '/' :: r from (List.append_assoc lit D _).symm]
      at htail
    obtain ⟨r₂, hrest⟩ := pySub_transfer (lit ++ D) hxs rest r htail
    have hsome : tryPat lit (c :: rest) = some r₂ := by
      apply (tryPat_some_iff lit (c :: rest) r₂).mpr
      exact ⟨D, by rw [hc, hrest]; simp, hD, hall⟩
    rw [h] at hsome
    exact absurd hsome (by simp)

theorem nines_digits : ∀ a ∈ nines, a.isDigit = true := by decide

theorem nines_ne_nil : nines ≠ [] := by decide

/-- The replacement text is itself a match of the pattern. -/
theorem tryPat_repl (lit X : List Char) : tryPat lit (patRepl lit ++ X) = some X := by
  apply (tryPat_some_iff lit (patRepl lit ++ X) X).mpr
  exact ⟨nines, by simp [patRepl], nines_ne_nil, nines_digits⟩

theorem patRepl_shape (lit X : List Char) :
    patRepl lit ++ X = '/' :: ((lit ++ nines) ++ '/' :: X) := by
  simp [patRepl]

theorem pySub_repl (lit X : List Char) :
    pySub lit (patRepl lit ++ X) = patRepl lit ++ pySub lit X := by
  have h := tryPat_repl lit X
  rw [patRepl_shape] at h
  rw [patRepl_shape, pySub_match h]

/-- Cancelling a maximal digit run: `9999999999/A = D/B` with `D` a digit
run forces `D = 9999999999`, `A = B`. -/
theorem digit_run_cancel {D : List Char} (hall : ∀ a ∈ D, a.isDigit = true) {A B : List Char}
    (h : nines ++ '/' :: A = D ++ '/' :: B) : D = nines ∧ A = B := by
  have hn := @takeWhile_append_of_all Char.isDigit nines '/' A nines_digits (by decide)
  have hd := @takeWhile_append_of_all Char.isDigit D '/' B hall (by decide)
  have h1 : nines = D := by rw [← hn.1, ← hd.1, h]
  have h2 : A = B := by
    have := hn.2.symm.trans ((congrArg (List.dropWhile Char.isDigit) h).trans hd.2)
    exact (List.cons.inj this).2
  exact ⟨h1.symm, h2⟩

/-- Each of the two version rewrites is idempotent. -/
theorem pySub_idem {lit : List Char} (hlit : ∀ a ∈ lit, a ≠ '/') (x : List Char) :
    pySub lit (pySub lit x) = pySub lit x := by
  induction x using pySub_induct with
  | case1 => rw [pySub_nil, pySub_nil]
  | case2 c rest rest' h ih =>
    rw [pySub_match h, pySub_repl, ih]
  | case3 c rest h ih =>
    rw [pySub_none h, pySub_none (tryPat_pySub_none hlit h), ih]

/-- Fixpoints of the `lit` rewrite are preserved by the `lit'` rewrite.  The
hypotheses record that the two patterns cannot interfere: both literals are
`/`-free, no `lit` match starts at the head of a `lit'` replacement, and no
string is simultaneously a `lit` match and a `lit'` match. -/
theorem pySub_cross_aux {lit lit' : List Char}
    (hlit : ∀ a ∈ lit, a ≠ '/')
    (hlit' : ∀ a ∈ lit', a ≠ '/')
    (hcross : ∀ Y, tryPat lit (patRepl lit' ++ Y) = none)
    (hdisj : ∀ D D' Z Z', D ≠ [] → D' ≠ [] → (∀ a ∈ D, a.isDigit = true) →
        (∀ a ∈ D', a.isDigit = true) →
        lit ++ (D ++ '/' :: Z) ≠ lit' ++ (D' ++ '/' :: Z')) :
    ∀ n x, x.length ≤ n →
      (pySub lit x = x → pySub lit (pySub lit' x) = pySub lit' x) ∧
      (pySub lit x = x → ∀ W, pySub lit' ('/' :: x) = '/' :: W → pySub lit W = W) ∧
      (pySub lit ('/' :: x) = '/' :: x →
        pySub lit ('/' :: pySub lit' x) = '/' :: pySub lit' x) := by
  have hln : ∀ a ∈ lit ++ nines, a ≠ '/' := by
    intro a ha
    rcases List.mem_append.mp ha with h | h
    · exact hlit a h
    · exact digit_ne_slash (nines_digits a h)
  have hln' : ∀ a ∈ lit' ++ nines, a ≠ '/' := by
    intro a ha
    rcases List.mem_append.mp ha with h | h
    · exact hlit' a h
    · exact digit_ne_slash (nines_digits a h)
  intro n
  induction n using Nat.strong_induction_on with
  | _ n ih =>
    intro x hxn
    have hmain : pySub lit x = x → pySub lit (pySub lit' x) = pySub lit' x := by
      intro hNF
      cases x with
      | nil => rw [pySub_nil, pySub_nil]
      | cons c rest =>
        cases htry' : tryPat lit' (c :: rest) with
        | some rest' =>
          obtain ⟨D', hcs', hD', hall'⟩ := (tryPat_some_iff lit' (c :: rest) rest').mp htry'
          obtain ⟨hc, hrest⟩ := List.cons.inj hcs'
          have htl : tryPat lit (c :: rest) = none := by
            cases h2 : tryPat lit (c :: rest) with
            | none => rfl
            | some z =>
              obtain ⟨D, hcs2, hD, hall⟩ := (tryPat_some_iff lit (c :: rest) z).mp h2
              have hbad := ((List.cons.inj hcs2).2).symm.trans hrest
              exact absurd hbad (hdisj D D' z rest' hD hD' hall hall')
          rw [pySub_none htl] at hNF
          have hNFr : pySub lit rest = rest := (List.cons.inj hNF).2
          have hlE : ∀ a ∈ lit' ++ D', a ≠ '/' := by
            intro a ha
            rcases List.mem_append.mp ha with h | h
            · exact hlit' a h
            · exact digit_ne_slash (hall' a h)
          have hpeel : pySub lit ('/' :: rest') = '/' :: rest' := by
            rw [hrest, show lit' ++ (D' ++ '/' :: rest') = (lit' ++ D') ++ '/' :: rest' from
              (List.append_assoc lit' D' _).symm, @pySub_copy lit (lit' ++ D') hlE] at hNFr
            exact List.append_cancel_left hNFr
          rw [pySub_match htry', patRepl_shape,
            pySub_none (by rw [← patRepl_shape]; exact hcross _),
            @pySub_copy lit (lit' ++ nines) hln' ('/' :: pySub lit' rest')]
          have hlen : rest'.length < n := by
            rw [hrest] at hxn
            simp only [List.length_cons, List.length_append] at hxn
            omega
          rw [(ih rest'.length hlen rest' le_rfl).2.2 hpeel]
        | none =>
          cases htl : tryPat lit (c :: rest) with
          | some z =>
            rw [pySub_match htl] at hNF
            obtain ⟨z₂, hz₂⟩ : ∃ z₂, pySub lit z = z₂ := ⟨_, rfl⟩
            rw [hz₂] at hNF
            have hNFz : pySub lit z₂ = z₂ := by rw [← hz₂]; exact pySub_idem hlit z
            have hx : c :: rest = '/' :: ((lit ++ nines) ++ '/' :: z₂) := by
              rw [← patRepl_shape]; exact hNF.symm
            obtain ⟨hc, hr⟩ := List.cons.inj hx
            rw [pySub_none htry', hr, @pySub_copy lit' (lit ++ nines) hln ('/' :: z₂)]
            obtain ⟨W, hW⟩ := pySub_head_slash lit' z₂
            rw [hW, hc, ← patRepl_shape, pySub_repl]
            have hzlen : z₂.length < n := by
              rw [hr] at hxn
              simp only [List.length_cons, List.length_append] at hxn
              omega
            rw [(ih z₂.length hzlen z₂ le_rfl).2.1 hNFz W hW]
          | none =>
            rw [pySub_none htl] at hNF
            have hNFr : pySub lit rest = rest := (List.cons.inj hNF).2
            rw [pySub_none htry', pySub_none (tryPat_pySub_none hlit htl)]
            have hlen : rest.length < n := by
              simp only [List.length_cons] at hxn
              omega
            rw [(ih rest.length hlen rest le_rfl).1 hNFr]
    refine ⟨hmain, ?_, ?_⟩
    · intro hNF W hW
      cases htry' : tryPat lit' ('/' :: x) with
      | none =>
        rw [pySub_none htry'] at hW
        rw [(List.cons.inj hW).2.symm, hmain hNF]
      | some w =>
        obtain ⟨E, hcs, hE, hallE⟩ := (tryPat_some_iff lit' ('/' :: x) w).mp htry'
        have hx : x = lit' ++ (E ++ '/' :: w) := (List.cons.inj hcs).2
        rw [pySub_match htry', patRepl_shape] at hW
        have hW' : W = (lit' ++ nines) ++ '/' :: pySub lit' w := (List.cons.inj hW).2.symm
        have hlE : ∀ a ∈ lit' ++ E, a ≠ '/' := by
          intro a ha
          rcases List.mem_append.mp ha with h | h
          · exact hlit' a h
          · exact digit_ne_slash (hallE a h)
        have hpw : pySub lit ('/' :: w) = '/' :: w := by
          rw [hx, show lit' ++ (E ++ '/' :: w) = (lit' ++ E) ++ '/' :: w from
            (List.append_assoc lit' E _).symm, @pySub_copy lit (lit' ++ E) hlE] at hNF
          exact List.append_cancel_left hNF
        have hwlen : w.length < n := by
          rw [hx] at hxn
          simp only [List.length_append, List.length_cons] at hxn
          omega
        rw [hW', @pySub_copy lit (lit' ++ nines) hln' ('/' :: pySub lit' w),
          (ih w.length hwlen w le_rfl).2.2 hpw]
    · intro hS
      cases htl : tryPat lit ('/' :: x) with
      | none =>
        rw [pySub_none htl] at hS
        have hNF : pySub lit x = x := (List.cons.inj hS).2
        rw [pySub_none (tryPat_pySub_none hlit htl), hmain hNF]
      | some u =>
        obtain ⟨D, hcs, hD, hallD⟩ := (tryPat_some_iff lit ('/' :: x) u).mp htl
        have hx1 : x = lit ++ (D ++ '/' :: u) := (List.cons.inj hcs).2
        rw [pySub_match htl, patRepl_shape] at hS
        have hx2 : (lit ++ nines) ++ '/' :: pySub lit u = x := (List.cons.inj hS).2
        have hcancel : nines ++ '/' :: pySub lit u = D ++ '/' :: u := by
          apply List.append_cancel_left
          rw [show lit ++ (nines ++ '/' :: pySub lit u) = (lit ++ nines) ++ '/' :: pySub lit u
            from (List.append_assoc lit nines _).symm, hx2, hx1]
        obtain ⟨hDn, hNFu⟩ := digit_run_cancel hallD hcancel
        have hx3 : x = (lit ++ nines) ++ '/' :: u := by
          rw [hx1, hDn, List.append_assoc]
        rw [hx3, @pySub_copy lit' (lit ++ nines) hln ('/' :: u)]
        obtain ⟨W, hW⟩ := pySub_head_slash lit' u
        rw [hW, ← patRepl_shape, pySub_repl]
        have hulen : u.length < n := by
          rw [hx1] at hxn
          simp only [List.length_append, List.length_cons] at hxn
          omega
        rw [(ih u.length hulen u le_rfl).2.1 hNFu W hW]

def versionLit : List Char := "version".data
def vLit : List Char := "v".data

theorem versionLit_ne_slash : ∀ a ∈ versionLit, a ≠ '/' := by decide

theorem vLit_ne_slash : ∀ a ∈ vLit, a ≠ '/' := by decide

/-- `/version\d+/` cannot match at the head of a `/v9999999999/`
replacement: the character after `/v` is a digit, not `e`. -/
theorem tryPat_version_repl_v (Y : List Char) :
    tryPat versionLit (patRepl vLit ++ Y) = none := by
  cases htry : tryPat versionLit (patRepl vLit ++ Y) with
  | none => rfl
  | some r =>
    obtain ⟨D, hcs, -, -⟩ := (tryPat_some_iff versionLit (patRepl vLit ++ Y) r).mp htry
    rw [patRepl_shape] at hcs
    have h2 := (List.cons.inj hcs).2
    have hL : (vLit ++ nines) ++ '/' :: Y =
        'v' :: '9' :: (('9' :: '9' :: '9' :: '9' :: '9' :: '9' :: '9' :: '9' :: '9' :: []) ++
          '/' :: Y) :=
      rfl
    have hR : versionLit ++ (D ++ '/' :: r) = 'v' :: 'e' :: ("rsion".data ++ (D ++ '/' :: r)) :=
      rfl
    rw [hL, hR] at h2
    have := (List.cons.inj (List.cons.inj h2).2).1
    exact absurd this (by decide)

/-- No string matches both `/version\d+/` and `/v\d+/` at once: the
character after the leading `v` would have to be both `e` and a digit. -/
theorem version_v_disj : ∀ D D' Z Z', D ≠ [] → D' ≠ [] →
    (∀ a ∈ D, a.isDigit = true) → (∀ a ∈ D', a.isDigit = true) →
    versionLit ++ (D ++ '/' :: Z) ≠ vLit ++ (D' ++ '/' :: Z') := by
  intro D D' Z Z' _ hD' _ hall' heq
  match D', hD' with
  | d :: ds, _ =>
    have hL : versionLit ++ (D ++ '/' :: Z) = 'v' :: 'e' :: ("rsion".data ++ (D ++ '/' :: Z)) :=
      rfl
    have hR : vLit ++ (d :: ds ++ '/' :: Z') = 'v' :: d :: (ds ++ '/' :: Z') := rfl
    rw [hL, hR] at heq
    have hd := (List.cons.inj (List.cons.inj heq).2).1
    have : ('e' : Char).isDigit = true := by
      rw [hd]; exact hall' d (List.mem_cons_self d ds)
    exact absurd this (by decide)

/-- The two version-directory rewrites applied (in this order) to internal
URLs in `getJS`. -/
def versionNorm (u : List Char) : List Char := pySub vLit (pySub versionLit u)

/-- URL canonicalisation in `getJS`: query-string redaction, then the
internal/external test `if url.find(page_domain): (external) else:
(internal)` — the URL counts as internal exactly when `find` returns `0` —
with the version rewrites applied on the internal branch only. -/
def normalizeUrl (pd : List Char) (url : List Char) : List Char :=
  let u := pyQredact url
  if pyFind u pd ≠ 0 then u else versionNorm u

theorem pySub_eq_nil_iff {lit l : List Char} : pySub lit l = [] ↔ l = [] := by
  constructor
  · intro h
    cases l with
    | nil => rfl
    | cons c rest =>
      cases htry : tryPat lit (c :: rest) with
      | some r' =>
        rw [pySub_match htry] at h
        exact absurd h (by simp [patRepl])
      | none =>
        rw [pySub_none htry] at h
        exact absurd h (by simp)
  · intro h
    rw [h, pySub_nil]

theorem mem_pySub_of_mem {lit : List Char} {a : Char} (ha : a ∉ lit) (had : a.isDigit = false)
    (has : a ≠ '/') : ∀ {l : List Char}, a ∈ l → a ∈ pySub lit l := by
  intro l
  induction l using pySub_induct with
  | case1 => intro h; exact absurd h (by simp)
  | case2 c rest rest' htry ih =>
    intro h
    rw [pySub_match htry]
    obtain ⟨D, hcs, -, hall⟩ := (tryPat_some_iff lit (c :: rest) rest').mp htry
    rw [hcs] at h
    apply List.mem_append_right
    apply ih
    rcases List.mem_cons.mp h with h1 | h1
    · exact absurd h1 has
    rcases List.mem_append.mp h1 with h2 | h2
    · exact absurd h2 ha
    rcases List.mem_append.mp h2 with h3 | h3
    · have h4 := hall a h3
      rw [had] at h4
      exact absurd h4 (by simp)
    rcases List.mem_cons.mp h3 with h4 | h4
    · exact absurd h4 has
    · exact h4
  | case3 c rest htry ih =>
    intro h
    rw [pySub_none htry]
    rcases List.mem_cons.mp h with h1 | h1
    · rw [h1]; exact List.mem_cons_self c _
    · exact List.mem_cons_of_mem c (ih h1)

theorem q_not_mem_patRepl {lit : List Char} (hq : '?' ∉ lit) : '?' ∉ patRepl lit := by
  intro hmem
  rcases List.mem_append.mp hmem with h1 | h1
  · rcases List.mem_cons.mp h1 with h2 | h2
    · exact absurd h2 (by decide)
    rcases List.mem_append.mp h2 with h3 | h3
    · exact hq h3
    · exact absurd (nines_digits '?' h3) (by decide)
  · rcases List.mem_cons.mp h1 with h2 | h2
    · exact absurd h2 (by decide)
    · exact absurd h2 (by simp)

/-- The version rewrites never create a `\?.+$` match. -/
theorem qsub_pySub_none {lit : List Char} (hn : '\n' ∉ lit) (hq : '?' ∉ lit) :
    ∀ {l : List Char}, qsub l = none → qsub (pySub lit l) = none := by
  intro l
  induction l using pySub_induct with
  | case1 => intro h; rw [pySub_nil]; exact h
  | case2 c rest rest' htry ih =>
    intro h
    rw [pySub_match htry]
    obtain ⟨D, hcs, -, -⟩ := (tryPat_some_iff lit (c :: rest) rest').mp htry
    rw [hcs] at h
    have h1 := (qsub_cons_none_inv h).2
    have h2 := qsub_append_none_inv lit h1
    have h3 := qsub_append_none_inv D h2
    have h4 : qsub rest' = none := (qsub_cons_none_inv h3).2
    exact qsub_append_no_q (patRepl lit) (q_not_mem_patRepl hq) (ih h4)
  | case3 c rest htry ih =>
    intro h
    obtain ⟨hcond, hrest⟩ := qsub_cons_none_inv h
    rw [pySub_none htry]
    apply qsub_cons_none_intro
    · rintro ⟨hc, hok⟩
      apply hcond
      refine ⟨hc, ?_⟩
      rw [qtailOk_true_iff] at hok ⊢
      refine ⟨?_, ?_⟩
      · intro hnil
        rw [hnil, pySub_nil] at hok
        exact hok.1 rfl
      · intro hmem
        exact hok.2 (mem_pySub_of_mem hn (by decide) (by decide) hmem)
    · exact ih hrest

/-- A match of `/<lit>\d+/` never involves a terminal newline. -/
theorem tryPat_append_newline {lit : List Char} (cs : List Char) :
    tryPat lit (cs ++ ['\n']) = (tryPat lit cs).map (· ++ ['\n']) := by
  cases htry : tryPat lit cs with
  | some r₀ =>
    obtain ⟨D, hcs, hD, hall⟩ := (tryPat_some_iff lit cs r₀).mp htry
    rw [hcs]
    have hshape : ('/' :: (lit ++ (D ++ '/' :: r₀))) ++ ['\n'] =
        '/' :: (lit ++ (D ++ '/' :: (r₀ ++ ['\n']))) := by
      simp
    rw [hshape, (tryPat_some_iff lit _ (r₀ ++ ['\n'])).mpr ⟨D, rfl, hD, hall⟩]
    rfl
  | none =>
    cases htry2 : tryPat lit (cs ++ ['\n']) with
    | none => rfl
    | some r =>
      obtain ⟨D, hcs, hD, hall⟩ := (tryPat_some_iff lit (cs ++ ['\n']) r).mp htry2
      rcases List.eq_nil_or_concat r with hrnil | ⟨r₀, a, hra⟩
      · rw [hrnil] at hcs
        have h1 := congrArg List.getLast? hcs
        rw [List.getLast?_concat] at h1
        have h2 : ('/' :: (lit ++ (D ++ '/' :: ([] : List Char)))).getLast? = some '/' := by
          rw [show '/' :: (lit ++ (D ++ '/' :: ([] : List Char))) =
            ('/' :: (lit ++ D)) ++ ['/'] by simp, List.getLast?_concat]
        rw [h2] at h1
        exact absurd (Option.some.inj h1) (by decide)
      · rw [hra] at hcs
        have hsh : cs ++ ['\n'] = ('/' :: (lit ++ (D ++ '/' :: r₀))) ++ [a] := by
          rw [hcs]; simp
        have ha : a = '\n' := by
          have h1 := congrArg List.getLast? hsh
          rw [List.getLast?_concat, List.getLast?_concat] at h1
          exact (Option.some.inj h1).symm
        rw [ha] at hsh
        have hcs0 : cs = '/' :: (lit ++ (D ++ '/' :: r₀)) := List.append_cancel_right hsh
        have hcon := (tryPat_some_iff lit cs r₀).mpr ⟨D, hcs0, hD, hall⟩
        rw [htry] at hcon
        exact absurd hcon (by simp)

theorem pySub_append_newline (lit : List Char) :
    ∀ n xs, xs.length ≤ n → pySub lit (xs ++ ['\n']) = pySub lit xs ++ ['\n'] := by
  intro n
  induction n using Nat.strong_induction_on with
  | _ n ih =>
    intro xs hxs
    cases xs with
    | nil =>
      rw [List.nil_append, pySub_nil, List.nil_append,
        pySub_none (tryPat_ne_slash [] (by decide)), pySub_nil]
    | cons c rest =>
      rw [List.cons_append]
      have happ := @tryPat_append_newline lit (c :: rest)
      rw [List.cons_append] at happ
      cases htry : tryPat lit (c :: rest) with
      | some r₀ =>
        rw [htry] at happ
        rw [pySub_match happ, pySub_match htry]
        have hr : r₀.length < n := by
          have h1 := tryPat_length htry
          simp only [List.length_cons] at h1 hxs
          omega
        rw [ih r₀.length hr r₀ le_rfl, List.append_assoc]
      | none =>
        rw [htry] at happ
        rw [pySub_none happ, pySub_none htry]
        have hr : rest.length < n := by
          simp only [List.length_cons] at hxs
          omega
        rw [ih rest.length hr rest le_rfl, List.cons_append]

/-- The scanner's output ends with the input's last character or with the
final `/` of a replacement. -/
theorem pySub_getLast (lit : List Char) : ∀ {l : List Char}, l ≠ [] →
    (pySub lit l).getLast? = l.getLast? ∨ (pySub lit l).getLast? = some '/' := by
  intro l
  induction l using pySub_induct with
  | case1 => intro h; exact absurd rfl h
  | case2 c rest rest' htry ih =>
    intro _
    rw [pySub_match htry]
    by_cases hr : rest' = []
    · right
      rw [hr, pySub_nil, List.append_nil,
        show patRepl lit = ('/' :: (lit ++ nines)) ++ ['/'] from rfl, List.getLast?_concat]
    · have hps : pySub lit rest' ≠ [] := fun hh => hr (pySub_eq_nil_iff.mp hh)
      obtain ⟨D, hcs, -, -⟩ := (tryPat_some_iff lit (c :: rest) rest').mp htry
      rcases ih hr with h1 | h1
      · left
        rw [List.getLast?_append_of_ne_nil _ hps, h1, hcs,
          show '/' :: (lit ++ (D ++ '/' :: rest')) = ('/' :: (lit ++ (D ++ ['/']))) ++ rest'
            by simp, List.getLast?_append_of_ne_nil _ hr]
      · right
        rw [List.getLast?_append_of_ne_nil _ hps, h1]
  | case3 c rest htry ih =>
    intro _
    rw [pySub_none htry]
    by_cases hr : rest = []
    · left
      rw [hr, pySub_nil]
    · have hps : pySub lit rest ≠ [] := fun hh => hr (pySub_eq_nil_iff.mp hh)
      have hcl : ∀ (l' : List Char), l' ≠ [] → (c :: l').getLast? = l'.getLast? := by
        intro l' hl'
        rw [show c :: l' = [c] ++ l' from rfl, List.getLast?_append_of_ne_nil _ hl']
      rcases ih hr with h1 | h1
      · left
        rw [hcl _ hps, h1, hcl _ hr]
      · right
        rw [hcl _ hps, h1]

/-- The version rewrites preserve the redaction-stability invariant. -/
theorem pySub_qredactStable {lit : List Char} (hn : '\n' ∉ lit) (hq : '?' ∉ lit)
    {y : List Char} (h : qredactStable y) : qredactStable (pySub lit y) := by
  rcases h with ⟨h1, h2⟩ | ⟨h1, h2⟩
  · left
    have hy : y ≠ [] := by
      intro hnil
      rw [hnil] at h1
      exact absurd h1 (by simp)
    have hdecomp : y = y.dropLast ++ ['\n'] := by
      conv_lhs => rw [← List.dropLast_append_getLast hy]
      have : y.getLast hy = '\n' := by
        have := List.getLast?_eq_getLast y hy
        rw [h1] at this
        exact (Option.some.inj this).symm
      rw [this]
    rw [hdecomp, pySub_append_newline lit y.dropLast.length y.dropLast le_rfl]
    refine ⟨List.getLast?_concat _, ?_⟩
    rw [List.dropLast_concat]
    exact qsub_pySub_none hn hq h2
  · right
    refine ⟨?_, qsub_pySub_none hn hq h2⟩
    by_cases hy : y = []
    · rw [hy, pySub_nil]
      simp
    · rcases pySub_getLast lit hy with hg | hg
      · rw [hg]; exact h1
      · rw [hg]; decide

theorem versionLit_no_newline : '\n' ∉ versionLit := by decide
theorem versionLit_no_q : '?' ∉ versionLit := by decide
theorem vLit_no_newline : '\n' ∉ vLit := by decide
theorem vLit_no_q : '?' ∉ vLit := by decide

theorem versionNorm_qredactStable {y : List Char} (h : qredactStable y) :
    qredactStable (versionNorm y) :=
  pySub_qredactStable vLit_no_newline vLit_no_q
    (pySub_qredactStable versionLit_no_newline versionLit_no_q h)

theorem versionNorm_idem (u : List Char) : versionNorm (versionNorm u) = versionNorm u := by
  unfold versionNorm
  have hNFt := pySub_idem versionLit_ne_slash u
  have h1 := (pySub_cross_aux versionLit_ne_slash vLit_ne_slash tryPat_version_repl_v
    version_v_disj (pySub versionLit u).length (pySub versionLit u) le_rfl).1 hNFt
  rw [h1]
  exact pySub_idem vLit_ne_slash (pySub versionLit u)

theorem qsub_prefix {P Q : List Char} (hP : '?' ∉ P) (hQ : qtailOk Q = true) :
    qsub (P ++ '?' :: Q) = some P := by
  induction P with
  | nil => exact qsub_cons_pos rfl hQ
  | cons p P ih =>
    have hp : p ≠ '?' := by
      intro heq
      apply hP
      rw [heq]
      exact List.mem_cons_self '?' P
    rw [List.cons_append, qsub_cons_neg (fun hc => hp hc.1),
      ih (fun hm => hP (List.mem_cons_of_mem p hm))]
    rfl

/-- Closed form of the redaction on a URL with a `?`-free prefix and a
non-empty newline-free query string. -/
theorem pyQredact_closed {P Q : List Char} (hP : '?' ∉ P) (hQ1 : Q ≠ []) (hQ2 : '\n' ∉ Q) :
    pyQredact (P ++ '?' :: Q) = P ++ qstringMarker := by
  have hok : qtailOk Q = true := qtailOk_true_iff.mpr ⟨hQ1, hQ2⟩
  have hlast : (P ++ '?' :: Q).getLast? ≠ some '\n' := by
    rw [show P ++ '?' :: Q = (P ++ ['?']) ++ Q by simp, List.getLast?_append_of_ne_nil _ hQ1]
    intro hcontra
    obtain ⟨hne, hx⟩ := List.mem_getLast?_eq_getLast
      (show '\n' ∈ Q.getLast? from Option.mem_def.mpr hcontra)
    exact hQ2 (hx ▸ List.getLast_mem hne)
  unfold pyQredact
  rw [if_neg hlast, qsub_prefix hP hok]

theorem normalizeUrl_idem (pd url : List Char) :
    normalizeUrl pd (normalizeUrl pd url) = normalizeUrl pd url := by
  unfold normalizeUrl
  by_cases hf : pyFind (pyQredact url) pd ≠ 0
  · rw [if_pos hf, pyQredact_idem, if_pos hf]
  · rw [if_neg hf, pyQredact_of_stable (versionNorm_qredactStable (qredactStable_qredact url))]
    by_cases hf2 : pyFind (versionNorm (pyQredact url)) pd ≠ 0
    · rw [if_pos hf2]
    · rw [if_neg hf2, versionNorm_idem]

/-! ## MD5 (`hashlib.md5`)

A complete executable model of MD5 (RFC 1321) over byte lists, with 32-bit
words represented as natural numbers reduced modulo `2^32`.  The source
creates one `hashlib.md5()` object per entry and may call `update` on it
several times; `update` is modelled by appending to the accumulated byte
list and `hexdigest` by `md5Hex` of that list. -/

def md5K : List Nat := [
  0xd76aa478, 0xe8c7b756, 0x242070db, 0xc1bdceee,
  0xf57c0faf, 0x4787c62a, 0xa8304613, 0xfd469501,
  0x698098d8, 0x8b44f7af, 0xffff5bb1, 0x895cd7be,
  0x6b901122, 0xfd987193, 0xa679438e, 0x49b40821,
  0xf61e2562, 0xc040b340, 0x265e5a51, 0xe9b6c7aa,
  0xd62f105d, 0x02441453, 0xd8a1e681, 0xe7d3fbc8,
  0x21e1cde6, 0xc33707d6, 0xf4d50d87, 0x455a14ed,
  0xa9e3e905, 0xfcefa3f8, 0x676f02d9, 0x8d2a4c8a,
  0xfffa3942, 0x8771f681, 0x6d9d6122, 0xfde5380c,
  0xa4beea44, 0x4bdecfa9, 0xf6bb4b60, 0xbebfbc70,
  0x289b7ec6, 0xeaa127fa, 0xd4ef3085, 0x04881d05,
  0xd9d4d039, 0xe6db99e5, 0x1fa27cf8, 0xc4ac5665,
  0xf4292244, 0x432aff97, 0xab9423a7, 0xfc93a039,
  0x655b59c3, 0x8f0ccc92, 0xffeff47d, 0x85845dd1,
  0x6fa87e4f, 0xfe2ce6e0, 0xa3014314, 0x4e0811a1,
  0xf7537e82, 0xbd3af235, 0x2ad7d2bb, 0xeb86d391]

def md5S : List Nat := [
  7, 12, 17, 22, 7, 12, 17, 22, 7, 12, 17, 22, 7, 12, 17, 22,
  5, 9, 14, 20, 5, 9, 14, 20, 5, 9, 14, 20, 5, 9, 14, 20,
  4, 11, 16, 23, 4, 11, 16, 23, 4, 11, 16, 23, 4, 11, 16, 23,
  6, 10, 15, 21, 6, 10, 15, 21, 6, 10, 15, 21, 6, 10, 15, 21]

/-- `k` bytes of `n` in little-endian order. -/
def leBytes : Nat → Nat → List Nat
  | 0, _ => []
  | k + 1, n => (n % 256) :: leBytes k (n / 256)

/-- MD5 padding: a `0x80` byte, zeros to 56 mod 64, then the bit length as
eight little-endian bytes. -/
def md5Pad (msg : List Nat) : List Nat :=
  msg ++ 0x80 :: List.replicate ((119 - msg.length % 64) % 64) 0
    ++ leBytes 8 (msg.length * 8)

/-- Split a 64-byte chunk into 16 little-endian 32-bit words. -/
def chunkWords : List Nat → List Nat
  | b0 :: b1 :: b2 :: b3 :: rest =>
    (b0 + 256 * b1 + 65536 * b2 + 16777216 * b3) :: chunkWords rest
  | _ => []

/-- Bitwise complement within 32 bits. -/
def md5Not (b : Nat) : Nat := 4294967295 - b % 4294967296

def md5F (b c d : Nat) : Nat := (b &&& c) ||| (md5Not b &&& d)
def md5G (b c d : Nat) : Nat := (d &&& b) ||| (md5Not d &&& c)
def md5H (b c d : Nat) : Nat := b ^^^ c ^^^ d
def md5I (b c d : Nat) : Nat := c ^^^ (b ||| md5Not d)

/-- Left-rotation of a 32-bit word. -/
def rotl32 (x s : Nat) : Nat :=
  ((x <<< s) % 4294967296) ||| ((x % 4294967296) >>> (32 - s))

def md5Mix (i b c d : Nat) : Nat :=
  if i < 16 then md5F b c d
  else if i < 32 then md5G b c d
  else if i < 48 then md5H b c d
  else md5I b c d

def md5Index (i : Nat) : Nat :=
  if i < 16 then i
  else if i < 32 then (5 * i + 1) % 16
  else if i < 48 then (3 * i + 5) % 16
  else (7 * i) % 16

def md5Round (M : List Nat) (st : Nat × Nat × Nat × Nat) (i : Nat) :
    Nat × Nat × Nat × Nat :=
  match st with
  | (a, b, c, d) =>
    let f := (md5Mix i b c d + a + md5K.getD i 0 + M.getD (md5Index i) 0) % 4294967296
    (d, (b + rotl32 f (md5S.getD i 0)) % 4294967296, b, c)

def md5ProcessChunk (M : List Nat) (st : Nat × Nat × Nat × Nat) :
    Nat × Nat × Nat × Nat :=
  match st, (List.range 64).foldl (md5Round M) st with
  | (a0, b0, c0, d0), (a, b, c, d) =>
    ((a0 + a) % 4294967296, (b0 + b) % 4294967296,
      (c0 + c) % 4294967296, (d0 + d) % 4294967296)

/-- Process the padded message 64 bytes at a time; `fuel` counts chunks. -/
def md5Chunks : Nat → List Nat → Nat × Nat × Nat × Nat → Nat × Nat × Nat × Nat
  | 0, _, st => st
  | fuel + 1, bytes, st =>
    md5Chunks fuel (bytes.drop 64) (md5ProcessChunk (chunkWords (bytes.take 64)) st)

def md5Digest (msg : List Nat) : Nat × Nat × Nat × Nat :=
  let padded := md5Pad msg
  md5Chunks (padded.length / 64) padded (0x67452301, 0xefcdab89, 0x98badcfe, 0x10325476)

def hexDigit (n : Nat) : Char := "0123456789abcdef".data.getD n '0'

def byteHex (b : Nat) : List Char := [hexDigit (b / 16 % 16), hexDigit (b % 16)]

/-- Little-endian hexadecimal rendering of one 32-bit word. -/
def wordHexLE (w : Nat) : List Char :=
  byteHex (w % 256) ++ byteHex (w / 256 % 256) ++ byteHex (w / 65536 % 256) ++
    byteHex (w / 16777216 % 256)

/-- `hashlib.md5(msg).hexdigest()`. -/
def md5Hex (msg : List Nat) : List Char :=
  match md5Digest msg with
  | (a, b, c, d) => wordHexLE a ++ wordHexLE b ++ wordHexLE c ++ wordHexLE d

/-! ## UTF-8 encoding (`str.encode('utf-8')`) -/

/-- UTF-8 encoding of one Unicode scalar value. -/
def utf8Char (c : Char) : List Nat :=
  let n := c.toNat
  if n < 0x80 then [n]
  else if n < 0x800 then
    [0xC0 ||| (n >>> 6), 0x80 ||| (n &&& 0x3F)]
  else if n < 0x10000 then
    [0xE0 ||| (n >>> 12), 0x80 ||| ((n >>> 6) &&& 0x3F), 0x80 ||| (n &&& 0x3F)]
  else
    [0xF0 ||| (n >>> 18), 0x80 ||| ((n >>> 12) &&& 0x3F),
      0x80 ||| ((n >>> 6) &&& 0x3F), 0x80 ||| (n &&& 0x3F)]

def utf8Encode (s : List Char) : List Nat := (s.map utf8Char).flatten

/-- The fingerprint computed by `getJS` for a body text hashed in a single
`update` call: the hexadecimal MD5 digest of the UTF-8 encoding. -/
def fingerprint (text : String) : String := ⟨md5Hex (utf8Encode text.data)⟩

/-! ## Data model of a parsed HAR document

Typed counterpart of the dictionary shape consumed by `getJS`:
`log.pages[0].{title, startedDateTime}`, and for each entry `request.url`,
`request.headers[]`, `response.headers[]` (name/value pairs), and
`response.content.{text (optional), size}`. -/

structure Header where
  name : String
  value : String
deriving DecidableEq

structure Content where
  text : Option String
  size : Int
deriving DecidableEq

structure Request where
  url : String
  headers : List Header
deriving DecidableEq

structure Response where
  headers : List Header
  content : Content
deriving DecidableEq

structure Entry where
  request : Request
  response : Response
deriving DecidableEq

structure Page where
  title : String
  startedDateTime : String
deriving DecidableEq

structure HarDoc where
  pages : List Page
  entries : List Entry
deriving DecidableEq

/-- One record of the `JSFiles` dictionary: `{size, hash, text, referer}`
(the source stores the literal string `"redacted"` in `text`). -/
structure JSRec where
  size : Int
  hash : String
  text : String
  referer : String
deriving DecidableEq

structure FileDetails where
  title : String
  startedDateTime : String
deriving DecidableEq

/-- Result of `getJS` plus the final state of its (mutated) input document. -/
structure GetJSOut where
  JSFiles : List (String × JSRec)
  fileDetails : FileDetails
  newDoc : HarDoc
deriving DecidableEq

/-- The placeholder substituted for a missing body text (the source spells
it `ANOMOLY`). -/
def anomalyText : String := "ADDED TEXT TO ANOMOLY"

/-- Python dict assignment `d[k] = v`: overwrite in place when the key
exists (dicts preserve insertion order), else append. -/
def dictInsert {β : Type} : List (String × β) → String → β → List (String × β)
  | [], k, v => [(k, v)]
  | (k', v') :: t, k, v =>
    if k' = k then (k, v) :: t else (k', v') :: dictInsert t k v

/-- The referer loop: start from `''` and overwrite with the query-redacted
value of each request header whose lowercased name is `referer`. -/
def findReferer (hs : List Header) : String :=
  hs.foldl
    (fun acc h =>
      if (⟨lowerAll h.name.data⟩ : String) = "referer" then ⟨pyQredact h.value.data⟩
      else acc)
    ""

/-- The response-header test: lowercased name is `content-type` and the
value contains the substring `javascript`. -/
def isJSHeader (h : Header) : Bool :=
  (⟨lowerAll h.name.data⟩ : String) = "content-type" &&
    pyContains h.value.data "javascript".data

/-- The response-header loop of `getJS` for one entry.  `mBytes` is the byte
sequence fed to the entry's single `hashlib.md5()` object so far (`update`
appends; a duplicate matching header therefore hashes the text twice); `c`
is the current `response.content` (mutated when `text` is absent); `js` is
the `JSFiles` dictionary. -/
def entryLoop (url : String) (reqHeaders : List Header) :
    List Header → List Nat → Content → List (String × JSRec) →
    List (String × JSRec) × Content
  | [], _, c, js => (js, c)
  | h :: hs, mBytes, c, js =>
    if isJSHeader h then
      let tc : String × Content :=
        match c.text with
        | some t => (t, c)
        | none => (anomalyText, { c with text := some anomalyText })
      let mBytes' := mBytes ++ utf8Encode tc.1.data
      let r : JSRec := ⟨tc.2.size, ⟨md5Hex mBytes'⟩, "redacted", findReferer reqHeaders⟩
      entryLoop url reqHeaders hs mBytes' tc.2 (dictInsert js url r)
    else
      entryLoop url reqHeaders hs mBytes c js

/-- The entry loop of `getJS`: normalise the URL, process the response
headers, and keep the (possibly mutated) entry. -/
def processEntries (pd : List Char) :
    List Entry → List (String × JSRec) → List (String × JSRec) × List Entry
  | [], js => (js, [])
  | e :: es, js =>
    let url : String := ⟨normalizeUrl pd e.request.url.data⟩
    let step := entryLoop url e.request.headers e.response.headers [] e.response.content js
    let rest := processEntries pd es step.1
    (rest.1, { e with response := { e.response with content := step.2 } } :: rest.2)

/-- `getJS`: detect the page domain from `pages[0].title`, walk the entries
building the `JSFiles` dictionary, and return it with the file details.
`newDoc` is the document as it stands afterwards (the source mutates
`entry['response']['content']['text']` for bodiless JavaScript entries);
`none` models the `IndexError` raised when `pages` is empty. -/
def getJS (outerDict : HarDoc) : Option GetJSOut :=
  match outerDict.pages with
  | [] => none
  | p :: _ =>
    let page_domain := pageDomain p.title.data
    let result := processEntries page_domain outerDict.entries []
    some ⟨result.1, ⟨p.title, p.startedDateTime⟩, ⟨outerDict.pages, result.2⟩⟩

/-! ## `compareJS` -/

/-- The differences dictionary: `newJS` maps new URLs to `1`;
`hashDifferentJS` maps changed URLs to `{baseline, compare}` hashes. -/
structure Differences where
  newJS : List (String × Nat)
  hashDifferentJS : List (String × (String × String))
deriving DecidableEq

/-- Iteration of `compareJS` over the comparison dictionary.  Python dict
keys are unique, so iterating `for key in compDict` pairs each key with its
value. -/
def compareGo (baseDict : List (String × JSRec)) :
    List (String × JSRec) → Differences → Differences
  | [], acc => acc
  | (key, r) :: t, acc =>
    match baseDict.lookup key with
    | none => compareGo baseDict t { acc with newJS := acc.newJS ++ [(key, 1)] }
    | some rb =>
      if rb.hash ≠ r.hash then
        compareGo baseDict t
          { acc with hashDifferentJS := acc.hashDifferentJS ++ [(key, (rb.hash, r.hash))] }
      else compareGo baseDict t acc

/-- `compareJS`: for every key of the comparison dictionary, report it as
new when absent from the baseline, as hash-different when present with a
different hash; keys present with equal hashes are reported in neither. -/
def compareJS (baseDict compDict : List (String × JSRec)) : Differences :=
  compareGo baseDict compDict ⟨[], []⟩

/-! ### Association-list (Python dict) lemmas -/

theorem mem_of_lookup_eq_some {β : Type} :
    ∀ {l : List (String × β)} {url : String} {r : β},
    l.lookup url = some r → (url, r) ∈ l := by
  intro l
  induction l with
  | nil => intro url r h; exact absurd h (by simp)
  | cons kv t ih =>
    intro url r h
    obtain ⟨k, v⟩ := kv
    cases hbeq : url == k with
    | true =>
      simp only [List.lookup_cons, hbeq] at h
      injection h with h'
      rw [beq_iff_eq.mp hbeq, ← h']
      exact List.mem_cons_self _ _
    | false =>
      simp only [List.lookup_cons, hbeq] at h
      exact List.mem_cons_of_mem _ (ih h)

theorem lookup_isSome_of_mem {β : Type} :
    ∀ {l : List (String × β)} {url : String} {r : β},
    (url, r) ∈ l → l.lookup url ≠ none := by
  intro l
  induction l with
  | nil => intro url r h; exact absurd h (by simp)
  | cons kv t ih =>
    intro url r h hl
    obtain ⟨k, v⟩ := kv
    cases hbeq : url == k with
    | true =>
      simp only [List.lookup_cons, hbeq] at hl
      exact absurd hl (by simp)
    | false =>
      simp only [List.lookup_cons, hbeq] at hl
      rcases List.mem_cons.mp h with h1 | h1
      · injection h1 with h1a h1b
        rw [h1a] at hbeq
        simp at hbeq
      · exact ih h1 hl

theorem lookup_eq_some_of_mem_nodup {β : Type} :
    ∀ {l : List (String × β)}, (l.map Prod.fst).Nodup →
    ∀ {url : String} {r : β}, (url, r) ∈ l → l.lookup url = some r := by
  intro l
  induction l with
  | nil => intro _ url r h; exact absurd h (by simp)
  | cons kv t ih =>
    intro hnd url r h
    obtain ⟨k, v⟩ := kv
    rw [List.map_cons, List.nodup_cons] at hnd
    rcases List.mem_cons.mp h with h1 | h1
    · injection h1 with h1a h1b
      simp only [List.lookup_cons, beq_iff_eq.mpr h1a, h1b]
    · have hk : url ≠ k := by
        intro heq
        apply hnd.1
        rw [← heq]
        exact List.mem_map.mpr ⟨(url, r), h1, rfl⟩
      have hbeq : (url == k) = false := by simpa using hk
      simp only [List.lookup_cons, hbeq]
      exact ih hnd.2 h1

/-! ### `compareJS` characterisation -/

theorem compareGo_newJS_mem (base : List (String × JSRec)) :
    ∀ (t : List (String × JSRec)) (acc : Differences) (url : String) (n : Nat),
    (url, n) ∈ (compareGo base t acc).newJS ↔
      (url, n) ∈ acc.newJS ∨ (n = 1 ∧ base.lookup url = none ∧ ∃ r, (url, r) ∈ t) := by
  intro t
  induction t with
  | nil =>
    intro acc url n
    simp [compareGo]
  | cons kv t ih =>
    intro acc url n
    obtain ⟨key, r⟩ := kv
    cases hb : base.lookup key with
    | none =>
      rw [show compareGo base ((key, r) :: t) acc =
          compareGo base t { acc with newJS := acc.newJS ++ [(key, 1)] } from by
        simp [compareGo, hb], ih]
      simp only [List.mem_append, List.mem_singleton]
      constructor
      · rintro ((h1 | h1) | h1)
        · exact Or.inl h1
        · injection h1 with ha hb2
          exact Or.inr ⟨hb2, by rw [ha]; exact hb, r, by rw [ha]; exact List.mem_cons_self _ _⟩
        · obtain ⟨hn, hl, r', hmem⟩ := h1
          exact Or.inr ⟨hn, hl, r', List.mem_cons_of_mem _ hmem⟩
      · rintro (h1 | ⟨hn, hl, r', hmem⟩)
        · exact Or.inl (Or.inl h1)
        · rcases List.mem_cons.mp hmem with h2 | h2
          · injection h2 with h2a h2b
            exact Or.inl (Or.inr (by rw [h2a, hn]))
          · exact Or.inr ⟨hn, hl, r', h2⟩
    | some rb =>
      have hstep : ∀ acc', (compareGo base ((key, r) :: t) acc').newJS =
          (compareGo base t (if rb.hash ≠ r.hash then
            { acc' with hashDifferentJS := acc'.hashDifferentJS ++ [(key, (rb.hash, r.hash))] }
          else acc')).newJS := by
        intro acc'
        by_cases hh : rb.hash ≠ r.hash
        · simp [compareGo, hb, hh]
        · simp [compareGo, hb, hh]
      rw [hstep acc]
      have hacc : ((if rb.hash ≠ r.hash then
          { acc with hashDifferentJS := acc.hashDifferentJS ++ [(key, (rb.hash, r.hash))] }
        else acc) : Differences).newJS = acc.newJS := by
        by_cases hh : rb.hash ≠ r.hash <;> simp [hh]
      rw [ih, hacc]
      constructor
      · rintro (h1 | ⟨hn, hl, r', hmem⟩)
        · exact Or.inl h1
        · exact Or.inr ⟨hn, hl, r', List.mem_cons_of_mem _ hmem⟩
      · rintro (h1 | ⟨hn, hl, r', hmem⟩)
        · exact Or.inl h1
        · rcases List.mem_cons.mp hmem with h2 | h2
          · injection h2 with h2a h2b
            rw [h2a] at hl
            rw [hl] at hb
            exact absurd hb (by simp)
          · exact Or.inr ⟨hn, hl, r', h2⟩

theorem compareGo_changed_mem (base : List (String × JSRec)) :
    ∀ (t : List (String × JSRec)) (acc : Differences) (url : String) (p : String × String),
    (url, p) ∈ (compareGo base t acc).hashDifferentJS ↔
      (url, p) ∈ acc.hashDifferentJS ∨
      ∃ r rb, (url, r) ∈ t ∧ base.lookup url = some rb ∧ rb.hash ≠ r.hash ∧
        p = (rb.hash, r.hash) := by
  intro t
  induction t with
  | nil =>
    intro acc url p
    simp [compareGo]
  | cons kv t ih =>
    intro acc url p
    obtain ⟨key, r⟩ := kv
    cases hb : base.lookup key with
    | none =>
      rw [show compareGo base ((key, r) :: t) acc =
          compareGo base t { acc with newJS := acc.newJS ++ [(key, 1)] } from by
        simp [compareGo, hb], ih]
      constructor
      · rintro (h1 | ⟨r', rb', hmem, hl, hh, hp⟩)
        · exact Or.inl h1
        · exact Or.inr ⟨r', rb', List.mem_cons_of_mem _ hmem, hl, hh, hp⟩
      · rintro (h1 | ⟨r', rb', hmem, hl, hh, hp⟩)
        · exact Or.inl h1
        · rcases List.mem_cons.mp hmem with h2 | h2
          · injection h2 with h2a h2b
            rw [h2a] at hl
            rw [hl] at hb
            exact absurd hb (by simp)
          · exact Or.inr ⟨r', rb', h2, hl, hh, hp⟩
    | some rb =>
      by_cases hh : rb.hash ≠ r.hash
      · rw [show compareGo base ((key, r) :: t) acc = compareGo base t
            { acc with hashDifferentJS := acc.hashDifferentJS ++ [(key, (rb.hash, r.hash))] }
          from by simp [compareGo, hb, hh], ih]
        simp only [List.mem_append, List.mem_singleton]
        constructor
        · rintro ((h1 | h1) | h1)
          · exact Or.inl h1
          · injection h1 with ha hp
            exact Or.inr ⟨r, rb, by rw [ha]; exact List.mem_cons_self _ _,
              by rw [ha]; exact hb, hh, hp⟩
          · obtain ⟨r', rb', hmem, hl, hh', hp⟩ := h1
            exact Or.inr ⟨r', rb', List.mem_cons_of_mem _ hmem, hl, hh', hp⟩
        · rintro (h1 | ⟨r', rb', hmem, hl, hh', hp⟩)
          · exact Or.inl (Or.inl h1)
          · rcases List.mem_cons.mp hmem with h2 | h2
            · injection h2 with h2a h2b
              rw [h2a] at hl
              rw [hl] at hb
              injection hb with hb'
              rw [h2a, hp, h2b, hb']
              exact Or.inl (Or.inr rfl)
            · exact Or.inr ⟨r', rb', h2, hl, hh', hp⟩
      · rw [show compareGo base ((key, r) :: t) acc = compareGo base t acc from by
          simp [compareGo, hb, hh], ih]
        constructor
        · rintro (h1 | ⟨r', rb', hmem, hl, hh', hp⟩)
          · exact Or.inl h1
          · exact Or.inr ⟨r', rb', List.mem_cons_of_mem _ hmem, hl, hh', hp⟩
        · rintro (h1 | ⟨r', rb', hmem, hl, hh', hp⟩)
          · exact Or.inl h1
          · rcases List.mem_cons.mp hmem with h2 | h2
            · injection h2 with h2a h2b
              rw [h2a] at hl
              rw [hl] at hb
              injection hb with hb'
              rw [h2b, hb'] at hh'
              exact absurd hh' hh
            · exact Or.inr ⟨r', rb', h2, hl, hh', hp⟩

/-! ### `getJS` characterisation -/

/-- The canonical URL under which `getJS` records an entry. -/
def entryCanon (pd : List Char) (e : Entry) : String :=
  ⟨normalizeUrl pd e.request.url.data⟩

/-- Closed form of the response-header loop for one entry: the last record
written (if any matching header exists) and the final content. -/
def entryRecAux (reqHeaders : List Header) :
    List Header → List Nat → Content → Option JSRec → Option JSRec × Content
  | [], _, c, last => (last, c)
  | h :: hs, mBytes, c, last =>
    if isJSHeader h then
      let tc : String × Content :=
        match c.text with
        | some t => (t, c)
        | none => (anomalyText, { c with text := some anomalyText })
      let mBytes' := mBytes ++ utf8Encode tc.1.data
      let r : JSRec := ⟨tc.2.size, ⟨md5Hex mBytes'⟩, "redacted", findReferer reqHeaders⟩
      entryRecAux reqHeaders hs mBytes' tc.2 (some r)
    else
      entryRecAux reqHeaders hs mBytes c last

/-- The record and final content produced for one entry. -/
def entryRecord (e : Entry) : Option JSRec × Content :=
  entryRecAux e.request.headers e.response.headers [] e.response.content none

def applyLast (js : List (String × JSRec)) (url : String) :
    Option JSRec → List (String × JSRec)
  | none => js
  | some r => dictInsert js url r

theorem dictInsert_dictInsert {β : Type} :
    ∀ (js : List (String × β)) (k : String) (v1 v2 : β),
    dictInsert (dictInsert js k v1) k v2 = dictInsert js k v2 := by
  intro js
  induction js with
  | nil => intro k v1 v2; simp [dictInsert]
  | cons kv t ih =>
    intro k v1 v2
    obtain ⟨k', v'⟩ := kv
    by_cases hk : k' = k
    · simp [dictInsert, hk]
    · simp [dictInsert, hk, ih]

theorem entryLoop_eq (url : String) (reqH : List Header) :
    ∀ (hs : List Header) (mBytes : List Nat) (c : Content) (js : List (String × JSRec))
      (last : Option JSRec),
    entryLoop url reqH hs mBytes c (applyLast js url last) =
      (applyLast js url (entryRecAux reqH hs mBytes c last).1,
        (entryRecAux reqH hs mBytes c last).2) := by
  intro hs
  induction hs with
  | nil => intro mBytes c js last; rfl
  | cons h hs ih =>
    intro mBytes c js last
    have key : ∀ r : JSRec, dictInsert (applyLast js url last) url r =
        applyLast js url (some r) := by
      intro r
      cases last with
      | none => rfl
      | some r0 => exact dictInsert_dictInsert js url r0 r
    by_cases hj : isJSHeader h
    · cases hct : c.text with
      | some t =>
        have h1 : entryLoop url reqH (h :: hs) mBytes c (applyLast js url last) =
            entryLoop url reqH hs (mBytes ++ utf8Encode t.data) c
              (dictInsert (applyLast js url last) url
                ⟨c.size, ⟨md5Hex (mBytes ++ utf8Encode t.data)⟩, "redacted",
                  findReferer reqH⟩) := by
          simp [entryLoop, hj, hct]
        have h2 : entryRecAux reqH (h :: hs) mBytes c last =
            entryRecAux reqH hs (mBytes ++ utf8Encode t.data) c
              (some ⟨c.size, ⟨md5Hex (mBytes ++ utf8Encode t.data)⟩, "redacted",
                findReferer reqH⟩) := by
          simp [entryRecAux, hj, hct]
        rw [h1, h2, key, ih]
      | none =>
        have h1 : entryLoop url reqH (h :: hs) mBytes c (applyLast js url last) =
            entryLoop url reqH hs (mBytes ++ utf8Encode anomalyText.data)
              { c with text := some anomalyText }
              (dictInsert (applyLast js url last) url
                ⟨c.size, ⟨md5Hex (mBytes ++ utf8Encode anomalyText.data)⟩, "redacted",
                  findReferer reqH⟩) := by
          simp [entryLoop, hj, hct]
        have h2 : entryRecAux reqH (h :: hs) mBytes c last =
            entryRecAux reqH hs (mBytes ++ utf8Encode anomalyText.data)
              { c with text := some anomalyText }
              (some ⟨c.size, ⟨md5Hex (mBytes ++ utf8Encode anomalyText.data)⟩, "redacted",
                findReferer reqH⟩) := by
          simp [entryRecAux, hj, hct]
        rw [h1, h2, key, ih]
    · have h1 : entryLoop url reqH (h :: hs) mBytes c (applyLast js url last) =
          entryLoop url reqH hs mBytes c (applyLast js url last) := by
        simp [entryLoop, hj]
      have h2 : entryRecAux reqH (h :: hs) mBytes c last =
          entryRecAux reqH hs mBytes c last := by
        simp [entryRecAux, hj]
      rw [h1, h2, ih]

theorem entryLoop_closed (url : String) (reqH hs : List Header) (c : Content)
    (js : List (String × JSRec)) :
    entryLoop url reqH hs [] c js =
      (applyLast js url (entryRecAux reqH hs [] c none).1,
        (entryRecAux reqH hs [] c none).2) :=
  entryLoop_eq url reqH hs [] c js none

theorem dictInsert_lookup {β : Type} :
    ∀ (js : List (String × β)) (k k' : String) (v : β),
    (dictInsert js k v).lookup k' = if k' = k then some v else js.lookup k' := by
  intro js
  induction js with
  | nil =>
    intro k k' v
    by_cases h : k' = k
    · subst h
      simp [dictInsert, List.lookup_cons]
    · have hbeq : (k' == k) = false := by simpa using h
      simp [dictInsert, List.lookup_cons, hbeq, h]
  | cons kv t ih =>
    intro k k' v
    obtain ⟨k0, v0⟩ := kv
    by_cases h0 : k0 = k
    · subst h0
      have hd : dictInsert ((k0, v0) :: t) k0 v = (k0, v) :: t := by
        simp [dictInsert]
      rw [hd]
      by_cases h : k' = k0
      · subst h
        simp [List.lookup_cons]
      · have hbeq : (k' == k0) = false := by simpa using h
        simp [List.lookup_cons, hbeq, h]
    · have hd : dictInsert ((k0, v0) :: t) k v = (k0, v0) :: dictInsert t k v := by
        simp [dictInsert, h0]
      rw [hd]
      by_cases h : k' = k0
      · subst h
        simp [List.lookup_cons, h0]
      · have hbeq : (k' == k0) = false := by simpa using h
        simp only [List.lookup_cons, hbeq]
        exact ih k k' v

theorem dictInsert_keys {β : Type} :
    ∀ (js : List (String × β)) (k k' : String) (v : β),
    k' ∈ (dictInsert js k v).map Prod.fst ↔ k' = k ∨ k' ∈ js.map Prod.fst := by
  intro js
  induction js with
  | nil =>
    intro k k' v
    simp [dictInsert]
  | cons kv t ih =>
    intro k k' v
    obtain ⟨k0, v0⟩ := kv
    by_cases h0 : k0 = k
    · subst h0
      have hd : dictInsert ((k0, v0) :: t) k0 v = (k0, v) :: t := by
        simp [dictInsert]
      rw [hd]
      simp
    · have hd : dictInsert ((k0, v0) :: t) k v = (k0, v0) :: dictInsert t k v := by
        simp [dictInsert, h0]
      rw [hd]
      simp [ih]
      tauto

theorem applyLast_keys (js : List (String × JSRec)) (url : String) (o : Option JSRec)
    (k : String) :
    k ∈ (applyLast js url o).map Prod.fst ↔
      (o.isSome = true ∧ k = url) ∨ k ∈ js.map Prod.fst := by
  cases o with
  | none => simp [applyLast]
  | some r =>
    rw [show applyLast js url (some r) = dictInsert js url r from rfl, dictInsert_keys]
    simp

theorem processEntries_nil (pd : List Char) (js : List (String × JSRec)) :
    processEntries pd [] js = (js, []) := rfl

theorem processEntries_cons (pd : List Char) (e : Entry) (es : List Entry)
    (js : List (String × JSRec)) :
    processEntries pd (e :: es) js =
      ((processEntries pd es (applyLast js (entryCanon pd e) (entryRecord e).1)).1,
        { e with response := { e.response with content := (entryRecord e).2 } } ::
          (processEntries pd es (applyLast js (entryCanon pd e) (entryRecord e).1)).2) := by
  conv_lhs => rw [processEntries]
  rw [show entryLoop (⟨normalizeUrl pd e.request.url.data⟩ : String) e.request.headers
      e.response.headers [] e.response.content js =
      (applyLast js (entryCanon pd e) (entryRecord e).1, (entryRecord e).2) from
    entryLoop_closed _ _ _ _ _]

theorem processEntries_lookup (pd : List Char) :
    ∀ (es : List Entry) (js : List (String × JSRec)) (k : String) (r : JSRec),
    (processEntries pd es js).1.lookup k = some r →
    js.lookup k = some r ∨ ∃ e ∈ es, (entryRecord e).1 = some r ∧ k = entryCanon pd e := by
  intro es
  induction es with
  | nil => intro js k r h; exact Or.inl h
  | cons e es ih =>
    intro js k r h
    rw [processEntries_cons] at h
    rcases ih _ k r h with h1 | ⟨e', he', hrec, hcanon⟩
    · cases ho : (entryRecord e).1 with
      | none =>
        rw [ho] at h1
        exact Or.inl h1
      | some r0 =>
        rw [ho] at h1
        rw [show applyLast js (entryCanon pd e) (some r0) = dictInsert js (entryCanon pd e) r0
          from rfl, dictInsert_lookup] at h1
        by_cases hk : k = entryCanon pd e
        · rw [if_pos hk] at h1
          injection h1 with h1'
          exact Or.inr ⟨e, List.mem_cons_self _ _, by rw [ho, h1'], hk⟩
        · rw [if_neg hk] at h1
          exact Or.inl h1
    · exact Or.inr ⟨e', List.mem_cons_of_mem _ he', hrec, hcanon⟩

theorem processEntries_keys (pd : List Char) :
    ∀ (es : List Entry) (js : List (String × JSRec)) (k : String),
    k ∈ (processEntries pd es js).1.map Prod.fst →
    k ∈ js.map Prod.fst ∨ ∃ e ∈ es, k = entryCanon pd e := by
  intro es
  induction es with
  | nil => intro js k h; exact Or.inl h
  | cons e es ih =>
    intro js k h
    rw [processEntries_cons] at h
    rcases ih _ k h with h1 | ⟨e', he', hcanon⟩
    · rcases (applyLast_keys js (entryCanon pd e) (entryRecord e).1 k).mp h1 with ⟨-, hk⟩ | h2
      · exact Or.inr ⟨e, List.mem_cons_self _ _, hk⟩
      · exact Or.inl h2
    · exact Or.inr ⟨e', List.mem_cons_of_mem _ he', hcanon⟩

theorem processEntries_keys_mono (pd : List Char) :
    ∀ (es : List Entry) (js : List (String × JSRec)) (k : String),
    k ∈ js.map Prod.fst → k ∈ (processEntries pd es js).1.map Prod.fst := by
  intro es
  induction es with
  | nil => intro js k h; exact h
  | cons e es ih =>
    intro js k h
    rw [processEntries_cons]
    exact ih _ k ((applyLast_keys js (entryCanon pd e) (entryRecord e).1 k).mpr (Or.inr h))

theorem processEntries_mem_canon (pd : List Char) :
    ∀ (es : List Entry) (js : List (String × JSRec)) (e : Entry),
    e ∈ es → (entryRecord e).1.isSome = true →
    entryCanon pd e ∈ (processEntries pd es js).1.map Prod.fst := by
  intro es
  induction es with
  | nil => intro js e h; exact absurd h (by simp)
  | cons e' es ih =>
    intro js e hmem hsome
    rw [processEntries_cons]
    rcases List.mem_cons.mp hmem with h1 | h1
    · subst h1
      apply processEntries_keys_mono
      exact (applyLast_keys js (entryCanon pd e) (entryRecord e).1 (entryCanon pd e)).mpr
        (Or.inl ⟨hsome, rfl⟩)
    · exact ih _ e h1 hsome

/-- Number of response headers of an entry that pass the JavaScript
content-type test (the source calls `m.update` once per such header). -/
def countJS (e : Entry) : Nat := e.response.headers.countP (fun h => isJSHeader h)

/-- The body text actually hashed for an entry processed from a fresh md5
object: the response text, or the placeholder when it is absent. -/
def textOrPlaceholder (c : Content) : String :=
  match c.text with
  | some t => t
  | none => anomalyText

theorem entryRecAux_no_js (reqH : List Header) :
    ∀ (hs : List Header) (mBytes : List Nat) (c : Content) (last : Option JSRec),
    (∀ h ∈ hs, ¬ isJSHeader h = true) →
    entryRecAux reqH hs mBytes c last = (last, c) := by
  intro hs
  induction hs with
  | nil => intro mBytes c last _; rfl
  | cons h hs ih =>
    intro mBytes c last hall
    have hj : ¬ isJSHeader h = true := hall h (List.mem_cons_self h hs)
    have h1 : entryRecAux reqH (h :: hs) mBytes c last =
        entryRecAux reqH hs mBytes c last := by
      simp [entryRecAux, hj]
    rw [h1]
    exact ih _ _ _ (fun h' hm => hall h' (List.mem_cons_of_mem h hm))

theorem entryRecAux_single (reqH : List Header) :
    ∀ (hs : List Header) (mBytes : List Nat) (c : Content),
    hs.countP (fun h => isJSHeader h) = 1 →
    entryRecAux reqH hs mBytes c none =
      (some ⟨c.size, ⟨md5Hex (mBytes ++ utf8Encode (textOrPlaceholder c).data)⟩, "redacted",
        findReferer reqH⟩,
       match c.text with
       | some _ => c
       | none => { c with text := some anomalyText }) := by
  intro hs
  induction hs with
  | nil => intro mBytes c hcount; exact absurd hcount (by simp)
  | cons h hs ih =>
    intro mBytes c hcount
    rw [List.countP_cons] at hcount
    by_cases hj : isJSHeader h
    · have h0 : hs.countP (fun h => isJSHeader h) = 0 := by
        simpa [hj] using hcount
      have hall : ∀ h' ∈ hs, ¬ isJSHeader h' = true := List.countP_eq_zero.mp h0
      cases hct : c.text with
      | some t =>
        have h1 : entryRecAux reqH (h :: hs) mBytes c none =
            entryRecAux reqH hs (mBytes ++ utf8Encode t.data) c
              (some ⟨c.size, ⟨md5Hex (mBytes ++ utf8Encode t.data)⟩, "redacted",
                findReferer reqH⟩) := by
          simp [entryRecAux, hj, hct]
        rw [h1, entryRecAux_no_js reqH hs _ _ _ hall]
        simp [textOrPlaceholder, hct]
      | none =>
        have h1 : entryRecAux reqH (h :: hs) mBytes c none =
            entryRecAux reqH hs (mBytes ++ utf8Encode anomalyText.data)
              { c with text := some anomalyText }
              (some ⟨c.size, ⟨md5Hex (mBytes ++ utf8Encode anomalyText.data)⟩, "redacted",
                findReferer reqH⟩) := by
          simp [entryRecAux, hj, hct]
        rw [h1, entryRecAux_no_js reqH hs _ _ _ hall]
        simp [textOrPlaceholder, hct]
    · have h1 : entryRecAux reqH (h :: hs) mBytes c none =
          entryRecAux reqH hs mBytes c none := by
        simp [entryRecAux, hj]
      have hcount' : hs.countP (fun h => isJSHeader h) = 1 := by
        simp only [hj] at hcount
        simpa using hcount
      rw [h1, ih _ _ hcount']

theorem entryRecord_single {e : Entry} (h : countJS e = 1) :
    (entryRecord e).1 = some ⟨e.response.content.size,
      fingerprint (textOrPlaceholder e.response.content), "redacted",
      findReferer e.request.headers⟩ := by
  unfold entryRecord
  rw [entryRecAux_single e.request.headers e.response.headers [] e.response.content h]
  simp [fingerprint]

theorem entryRecord_none_of_zero {e : Entry} (h : countJS e = 0) :
    (entryRecord e).1 = none := by
  unfold entryRecord
  rw [entryRecAux_no_js e.request.headers e.response.headers [] e.response.content none
    (List.countP_eq_zero.mp h)]

theorem entryRecord_some_count {e : Entry} {r : JSRec} (h : (entryRecord e).1 = some r) :
    countJS e ≠ 0 := by
  intro h0
  rw [entryRecord_none_of_zero h0] at h
  exact absurd h (by simp)

theorem entryRecAux_content_some (reqH : List Header) :
    ∀ (hs : List Header) (mBytes : List Nat) (c : Content) (last : Option JSRec),
    c.text.isSome = true →
    (entryRecAux reqH hs mBytes c last).2 = c := by
  intro hs
  induction hs with
  | nil => intro mBytes c last _; rfl
  | cons h hs ih =>
    intro mBytes c last hct
    obtain ⟨t, ht⟩ := Option.isSome_iff_exists.mp hct
    by_cases hj : isJSHeader h
    · have h1 : entryRecAux reqH (h :: hs) mBytes c last =
          entryRecAux reqH hs (mBytes ++ utf8Encode t.data) c
            (some ⟨c.size, ⟨md5Hex (mBytes ++ utf8Encode t.data)⟩, "redacted",
              findReferer reqH⟩) := by
        simp [entryRecAux, hj, ht]
      rw [h1, ih _ _ _ hct]
    · have h1 : entryRecAux reqH (h :: hs) mBytes c last =
          entryRecAux reqH hs mBytes c last := by
        simp [entryRecAux, hj]
      rw [h1, ih _ _ _ hct]

/-- Frame property: when no JavaScript entry lacks its body text, the
entries come out of `processEntries` unchanged. -/
theorem processEntries_entries_id (pd : List Char) :
    ∀ (es : List Entry) (js : List (String × JSRec)),
    (∀ e ∈ es, e.response.content.text = none → countJS e = 0) →
    (processEntries pd es js).2 = es := by
  intro es
  induction es with
  | nil => intro js _; rfl
  | cons e es ih =>
    intro js hall
    rw [processEntries_cons]
    have hcontent : (entryRecord e).2 = e.response.content := by
      cases hct : e.response.content.text with
      | some t =>
        exact entryRecAux_content_some _ _ _ _ _ (by rw [hct]; rfl)
      | none =>
        have h0 := hall e (List.mem_cons_self e es) hct
        unfold entryRecord
        rw [entryRecAux_no_js e.request.headers e.response.headers [] e.response.content none
          (List.countP_eq_zero.mp h0)]
    rw [hcontent]
    have hentry : ({ e with response := { e.response with content := e.response.content } } :
        Entry) = e := rfl
    rw [hentry, ih _ (fun e' hm => hall e' (List.mem_cons_of_mem e hm))]

theorem getJS_eq {doc : HarDoc} {p : Page} {ps : List Page} (h : doc.pages = p :: ps) :
    getJS doc = some ⟨(processEntries (pageDomain p.title.data) doc.entries []).1,
      ⟨p.title, p.startedDateTime⟩,
      ⟨doc.pages, (processEntries (pageDomain p.title.data) doc.entries []).2⟩⟩ := by
  unfold getJS
  rw [h]

theorem compareJS_newJS_mem (base comp : List (String × JSRec)) (url : String) (n : Nat) :
    (url, n) ∈ (compareJS base comp).newJS ↔
      n = 1 ∧ base.lookup url = none ∧ ∃ r, (url, r) ∈ comp := by
  rw [compareJS, compareGo_newJS_mem]
  simp

theorem compareJS_changed_mem (base comp : List (String × JSRec)) (url : String)
    (p : String × String) :
    (url, p) ∈ (compareJS base comp).hashDifferentJS ↔
      ∃ r rb, (url, r) ∈ comp ∧ base.lookup url = some rb ∧ rb.hash ≠ r.hash ∧
        p = (rb.hash, r.hash) := by
  rw [compareJS, compareGo_changed_mem]
  simp

/-! ## The specification claims -/

theorem normalizeUrl_nil_domain (u : List Char) :
    normalizeUrl [] u = versionNorm (pyQredact u) := by
  have h0 : pyFind (pyQredact u) [] = 0 := by
    rw [pyFind.eq_def, if_pos]
    cases pyQredact u <;> rfl
  simp [normalizeUrl, h0]

/-- Claim C2: the URL normaliser (query-string redaction followed, for URLs
taken as internal, by the `/version<digits>/` and `/v<digits>/` rewrites) is
idempotent for every page domain and every raw URL. -/
theorem claim_C2 (pd url : List Char) :
    normalizeUrl pd (normalizeUrl pd url) = normalizeUrl pd url :=
  normalizeUrl_idem pd url

/-- Claim C10: origin detection recognises only the `https` scheme: a domain
is detected exactly when the title starts, case-insensitively, with
`https://` followed by a non-`/` character, in which case it is that prefix
together with the host run; a title starting `http://` yields no domain. -/
theorem claim_C10 (title rest : List Char) :
    (pageDomain title ≠ [] ↔
      lowerAll (title.take 8) = httpsLit ∧ (title.drop 8).headD '/' ≠ '/') ∧
    (pageDomain title ≠ [] →
      pageDomain title = title.take 8 ++ (title.drop 8).takeWhile (· ≠ '/')) ∧
    pageDomain ("http://".data ++ rest) = [] := by
  refine ⟨?_, ?_, ?_⟩
  · by_cases hc : lowerAll (title.take 8) = httpsLit ∧ (title.drop 8).headD '/' ≠ '/'
    · rw [pageDomain, if_pos hc]
      have hlen : title.take 8 ≠ [] := by
        intro h0
        have h1 := hc.1
        rw [h0] at h1
        exact absurd (congrArg List.length h1) (by decide)
      simp only [iff_true_intro hc, iff_true]
      intro heq
      exact hlen (List.append_eq_nil.mp heq).1
    · rw [pageDomain, if_neg hc]
      constructor
      · intro h
        exact absurd rfl h
      · intro h
        exact absurd h hc
  · intro hne
    by_cases hc : lowerAll (title.take 8) = httpsLit ∧ (title.drop 8).headD '/' ≠ '/'
    · rw [pageDomain, if_pos hc]
    · rw [pageDomain, if_neg hc] at hne
      exact absurd rfl hne
  · cases rest with
    | nil => decide
    | cons c rest =>
      rw [pageDomain, if_neg]
      rintro ⟨h1, -⟩
      rw [show ("http://".data ++ (c :: rest)).take 8 = ['h','t','t','p',':','/','/',c]
        from rfl] at h1
      rw [show lowerAll ['h','t','t','p',':','/','/',c] =
        ['h','t','t','p',':','/','/',c.toLower] from rfl] at h1
      rw [show httpsLit = ['h','t','t','p','s',':','/','/'] from rfl] at h1
      simp at h1

/-- Claim C7 counterexample: the two URLs `https://e.com/s?` and
`https://e.com/s?q=1` agree up to their first `?` and differ only from it
onward, yet their canonical URLs differ (a `?` with nothing after it is not
matched by the redaction pattern, whose `.+` needs a non-empty tail). -/
theorem claim_C7_counterexample :
    pyQredact "https://e.com/s?".data = "https://e.com/s?".data ∧
    pyQredact "https://e.com/s?q=1".data = "https://e.com/s[qstring redacted]".data ∧
    normalizeUrl "https://x.org".data "https://e.com/s?".data ≠
      normalizeUrl "https://x.org".data "https://e.com/s?q=1".data := by
  refine ⟨rfl, rfl, ?_⟩
  decide

/-- Claim C7 (amended): for URLs whose query part is non-empty and free of
newlines and whose pre-`?` part holds no `?`, redaction maps the URL to its
pre-`?` part followed by the literal marker; two such URLs with the same
pre-`?` part redact equal, and two with different pre-`?` parts redact
different. -/
theorem claim_C7 (P1 P2 Q1 Q2 : List Char)
    (hP1 : '?' ∉ P1) (hP2 : '?' ∉ P2) (hQ1 : Q1 ≠ []) (hQ1n : '\n' ∉ Q1)
    (hQ2 : Q2 ≠ []) (hQ2n : '\n' ∉ Q2) :
    pyQredact (P1 ++ '?' :: Q1) = P1 ++ qstringMarker ∧
    (P1 = P2 → pyQredact (P1 ++ '?' :: Q1) = pyQredact (P2 ++ '?' :: Q2)) ∧
    (P1 ≠ P2 → pyQredact (P1 ++ '?' :: Q1) ≠ pyQredact (P2 ++ '?' :: Q2)) := by
  refine ⟨pyQredact_closed hP1 hQ1 hQ1n, ?_, ?_⟩
  · intro h
    rw [pyQredact_closed hP1 hQ1 hQ1n, pyQredact_closed hP2 hQ2 hQ2n, h]
  · intro hne heq
    rw [pyQredact_closed hP1 hQ1 hQ1n, pyQredact_closed hP2 hQ2 hQ2n] at heq
    exact hne (List.append_cancel_right heq)

/-- Claim C7 witness: the amended redaction property at the concrete URLs
`https://e.com/a?q=1` and `https://e.com/b?r=2`. -/
theorem claim_C7_witness :
    pyQredact ("https://e.com/a".data ++ '?' :: "q=1".data) =
      "https://e.com/a".data ++ qstringMarker ∧
    ("https://e.com/a".data = "https://e.com/b".data →
      pyQredact ("https://e.com/a".data ++ '?' :: "q=1".data) =
        pyQredact ("https://e.com/b".data ++ '?' :: "r=2".data)) ∧
    ("https://e.com/a".data ≠ "https://e.com/b".data →
      pyQredact ("https://e.com/a".data ++ '?' :: "q=1".data) ≠
        pyQredact ("https://e.com/b".data ++ '?' :: "r=2".data)) :=
  claim_C7 "https://e.com/a".data "https://e.com/b".data "q=1".data "r=2".data
    (by decide) (by decide) (by decide) (by decide) (by decide) (by decide)

/-- Claim C3: the differ classifies every key of the comparison dictionary
exactly as stated: it is reported new precisely when absent from the
baseline; it is reported hash-different, carrying the baseline and
comparison hashes, precisely when present in the baseline with a different
hash; and a key present in both with equal hashes is reported in neither. -/
theorem claim_C3 (base comp : List (String × JSRec)) (url : String) (r : JSRec)
    (hnd : (comp.map Prod.fst).Nodup) (hlook : comp.lookup url = some r) :
    ((url, 1) ∈ (compareJS base comp).newJS ↔ base.lookup url = none) ∧
    (∀ pr : String × String, (url, pr) ∈ (compareJS base comp).hashDifferentJS ↔
      ∃ rb, base.lookup url = some rb ∧ rb.hash ≠ r.hash ∧ pr = (rb.hash, r.hash)) ∧
    (∀ rb, base.lookup url = some rb → rb.hash = r.hash →
      (∀ n, (url, n) ∉ (compareJS base comp).newJS) ∧
      (∀ pr, (url, pr) ∉ (compareJS base comp).hashDifferentJS)) := by
  refine ⟨?_, ?_, ?_⟩
  · rw [compareJS_newJS_mem]
    constructor
    · intro h
      exact h.2.1
    · intro hb
      exact ⟨rfl, hb, r, mem_of_lookup_eq_some hlook⟩
  · intro pr
    rw [compareJS_changed_mem]
    constructor
    · rintro ⟨r2, rb, hmem, hb, hh, hpr⟩
      have hr2 : r2 = r := by
        have h1 := lookup_eq_some_of_mem_nodup hnd hmem
        rw [hlook] at h1
        injection h1 with h2
        exact h2.symm
      rw [hr2] at hh hpr
      exact ⟨rb, hb, hh, hpr⟩
    · rintro ⟨rb, hb, hh, hpr⟩
      exact ⟨r, rb, mem_of_lookup_eq_some hlook, hb, hh, hpr⟩
  · intro rb hb heq
    constructor
    · intro n hn
      have h1 := ((compareJS_newJS_mem base comp url n).mp hn).2.1
      rw [hb] at h1
      exact absurd h1 (by simp)
    · intro pr hpr
      obtain ⟨r2, rb2, hmem, hb2, hh, -⟩ := (compareJS_changed_mem base comp url pr).mp hpr
      have hr2 : r2 = r := by
        have h1 := lookup_eq_some_of_mem_nodup hnd hmem
        rw [hlook] at h1
        injection h1 with h2
        exact h2.symm
      rw [hb] at hb2
      injection hb2 with hb3
      apply hh
      rw [← hb3, hr2, heq]

def c3base : List (String × JSRec) :=
  [("https://a.com/x.js", ⟨10, "h1", "redacted", ""⟩),
   ("https://a.com/w.js", ⟨20, "h3", "redacted", ""⟩)]

def c3comp : List (String × JSRec) :=
  [("https://a.com/x.js", ⟨10, "h2", "redacted", ""⟩),
   ("https://a.com/v.js", ⟨30, "h4", "redacted", ""⟩)]

/-- Claim C3 witness: on concrete dictionaries, the shared key with a
changed hash is reported with both hashes and the fresh key is reported
new. -/
theorem claim_C3_witness :
    (("https://a.com/x.js", ("h1", "h2")) ∈ (compareJS c3base c3comp).hashDifferentJS) ∧
    (("https://a.com/v.js", 1) ∈ (compareJS c3base c3comp).newJS) := by
  constructor
  · exact ((claim_C3 c3base c3comp "https://a.com/x.js" ⟨10, "h2", "redacted", ""⟩
      (by decide) (by decide)).2.1 ("h1", "h2")).mpr
      ⟨⟨10, "h1", "redacted", ""⟩, by decide, by decide, rfl⟩
  · exact ((claim_C3 c3base c3comp "https://a.com/v.js" ⟨30, "h4", "redacted", ""⟩
      (by decide) (by decide)).1).mpr (by decide)

/-- Claim C4: a key present only in the baseline dictionary is reported
neither as new nor as hash-different: the differ ranges over the comparison
dictionary's keys only. -/
theorem claim_C4 (base comp : List (String × JSRec)) (url : String) (r : JSRec)
    (_hbase : base.lookup url = some r) (hcomp : comp.lookup url = none) :
    (∀ n, (url, n) ∉ (compareJS base comp).newJS) ∧
    (∀ pr, (url, pr) ∉ (compareJS base comp).hashDifferentJS) := by
  constructor
  · intro n hn
    obtain ⟨-, -, r2, hmem⟩ := (compareJS_newJS_mem base comp url n).mp hn
    exact lookup_isSome_of_mem hmem hcomp
  · intro pr hpr
    obtain ⟨r2, rb, hmem, -, -, -⟩ := (compareJS_changed_mem base comp url pr).mp hpr
    exact lookup_isSome_of_mem hmem hcomp

def c4base : List (String × JSRec) := [("https://a.com/A.js", ⟨10, "h1", "redacted", ""⟩)]

def c4comp : List (String × JSRec) := [("https://a.com/B.js", ⟨20, "h2", "redacted", ""⟩)]

/-- Claim C4 witness: with baseline `{A}` and comparison `{B}`, the new set
is exactly `{B}`, the changed mapping is empty, and the removed key `A` is
reported nowhere. -/
theorem claim_C4_witness :
    (compareJS c4base c4comp).newJS = [("https://a.com/B.js", 1)] ∧
    (compareJS c4base c4comp).hashDifferentJS = [] ∧
    (∀ n, ("https://a.com/A.js", n) ∉ (compareJS c4base c4comp).newJS) ∧
    (∀ pr, ("https://a.com/A.js", pr) ∉ (compareJS c4base c4comp).hashDifferentJS) := by
  have h := claim_C4 c4base c4comp "https://a.com/A.js" ⟨10, "h1", "redacted", ""⟩
    (by decide) (by decide)
  exact ⟨by decide, by decide, h.1, h.2⟩

def c1doc : HarDoc :=
  ⟨[⟨"Example Page", "2020-05-25T10:00:00.000Z"⟩],
   [⟨⟨"https://cdn.example.com/version12/app.js?x=1", []⟩,
     ⟨[⟨"Content-Type", "application/javascript"⟩], ⟨some "x", 1⟩⟩⟩]⟩

def c1out : GetJSOut :=
  ⟨[("https://cdn.example.com/version9999999999/app.js[qstring redacted]",
     ⟨1, "9dd4e461268c8034f5c8564e155c67a6", "redacted", ""⟩)],
   ⟨"Example Page", "2020-05-25T10:00:00.000Z"⟩, c1doc⟩

/-- Claim C1 counterexample: the page title `Example Page` yields no domain,
yet the entry's canonical URL has its `/version12/` segment rewritten: with
an empty domain `url.find(page_domain)` is `0`, so every URL takes the
internal branch and version-path normalisation is applied, not skipped. -/
theorem claim_C1_counterexample :
    pageDomain "Example Page".data = [] ∧
    (getJS c1doc).map (fun o => o.JSFiles.map Prod.fst) =
      some ["https://cdn.example.com/version9999999999/app.js[qstring redacted]"] ∧
    ("https://cdn.example.com/version9999999999/app.js[qstring redacted]" : String) ≠
      ⟨pyQredact "https://cdn.example.com/version12/app.js?x=1".data⟩ := by
  refine ⟨by decide, by decide, by decide⟩

/-- Claim C1 (amended): when the page title yields no domain, every key of
the produced dictionary is the query-redacted raw URL of some entry with
both version-path rewrites applied — the internal branch, the opposite of
the claimed external treatment. -/
theorem claim_C1 (doc : HarDoc) (p : Page) (ps : List Page) (out : GetJSOut)
    (hp : doc.pages = p :: ps) (hdom : pageDomain p.title.data = [])
    (hout : getJS doc = some out) :
    ∀ k ∈ out.JSFiles.map Prod.fst, ∃ e ∈ doc.entries,
      k = (⟨versionNorm (pyQredact e.request.url.data)⟩ : String) := by
  intro k hk
  have hout2 := getJS_eq hp
  rw [hout] at hout2
  injection hout2 with hout3
  rw [hout3] at hk
  rcases processEntries_keys (pageDomain p.title.data) doc.entries [] k hk with
    h1 | ⟨e, he, hcanon⟩
  · exact absurd h1 (by simp)
  · refine ⟨e, he, ?_⟩
    rw [hcanon]
    unfold entryCanon
    rw [hdom, normalizeUrl_nil_domain]

/-- Claim C1 witness: the amended property evaluated on the concrete
document whose title `Example Page` yields no domain. -/
theorem claim_C1_witness :
    ∃ e ∈ c1doc.entries,
      ("https://cdn.example.com/version9999999999/app.js[qstring redacted]" : String) =
        (⟨versionNorm (pyQredact e.request.url.data)⟩ : String) :=
  claim_C1 c1doc ⟨"Example Page", "2020-05-25T10:00:00.000Z"⟩ [] c1out rfl (by decide)
    (by decide) "https://cdn.example.com/version9999999999/app.js[qstring redacted]"
    (by decide)

def c5doc : HarDoc :=
  ⟨[⟨"T", "D"⟩],
   [⟨⟨"https://cdn.example.com/app.js", []⟩,
     ⟨[⟨"content-type", "text/javascript"⟩, ⟨"Content-Type", "application/javascript"⟩],
      ⟨some "x", 1⟩⟩⟩]⟩

/-- Claim C5 counterexample: an entry with two matching `content-type`
response headers and body `x` is stored with the digest of `xx` — one md5
object receives `update` once per matching header, so the stored hash is
the digest of the body concatenated with itself, not of the body. -/
theorem claim_C5_counterexample :
    c5doc.entries.map (fun e => e.response.content.text) = [some "x"] ∧
    (getJS c5doc).map (fun o => o.JSFiles.map (fun kv => kv.2.hash)) =
      some ["9336ebf25087d91c818ee6e9ec29f8c1"] ∧
    ("9336ebf25087d91c818ee6e9ec29f8c1" : String) =
      ⟨md5Hex (utf8Encode "x".data ++ utf8Encode "x".data)⟩ ∧
    ("9336ebf25087d91c818ee6e9ec29f8c1" : String) ≠ fingerprint "x" := by
  refine ⟨rfl, by decide, by decide, by decide⟩

/-- Claim C5 (amended): for a document in which no entry has more than one
matching `content-type` header, every stored record's hash is exactly the
hexadecimal MD5 digest of the UTF-8 encoding of that entry's body text (or
of the placeholder when the body is absent). -/
theorem claim_C5 (doc : HarDoc) (p : Page) (ps : List Page) (out : GetJSOut)
    (hp : doc.pages = p :: ps) (hout : getJS doc = some out)
    (hsingle : ∀ e ∈ doc.entries, countJS e ≤ 1)
    (k : String) (r : JSRec) (hk : out.JSFiles.lookup k = some r) :
    ∃ e ∈ doc.entries, k = entryCanon (pageDomain p.title.data) e ∧
      r.hash = fingerprint (textOrPlaceholder e.response.content) := by
  have hout2 := getJS_eq hp
  rw [hout] at hout2
  injection hout2 with hout3
  rw [hout3] at hk
  rcases processEntries_lookup (pageDomain p.title.data) doc.entries [] k r hk with
    h1 | ⟨e, he, hrec, hcanon⟩
  · exact absurd h1 (by simp)
  · have hcount : countJS e = 1 := by
      have h0 := entryRecord_some_count hrec
      have h2 := hsingle e he
      omega
    rw [entryRecord_single hcount] at hrec
    injection hrec with hrec2
    exact ⟨e, he, hcanon, by rw [← hrec2]⟩

/-- Claim C5 witness: the amended property on a single-header document with
body `x`, whose stored hash is the digest of `x` alone. -/
theorem claim_C5_witness :
    ∃ e ∈ c1doc.entries,
      ("https://cdn.example.com/version9999999999/app.js[qstring redacted]" : String) =
        entryCanon (pageDomain "Example Page".data) e ∧
      ("9dd4e461268c8034f5c8564e155c67a6" : String) =
        fingerprint (textOrPlaceholder e.response.content) :=
  claim_C5 c1doc ⟨"Example Page", "2020-05-25T10:00:00.000Z"⟩ [] c1out rfl (by decide)
    (by decide) "https://cdn.example.com/version9999999999/app.js[qstring redacted]"
    ⟨1, "9dd4e461268c8034f5c8564e155c67a6", "redacted", ""⟩ (by decide)

def c6e : Entry :=
  ⟨⟨"https://cdn.example.com/app.js", []⟩,
   ⟨[⟨"Content-Type", "application/javascript"⟩], ⟨none, 0⟩⟩⟩

def c6doc : HarDoc := ⟨[⟨"T", "D"⟩], [c6e]⟩

def c6out : GetJSOut :=
  ⟨[("https://cdn.example.com/app.js",
     ⟨0, "c5c94fe63c9e1dd32c92ff6881afee64", "redacted", ""⟩)],
   ⟨"T", "D"⟩,
   ⟨[⟨"T", "D"⟩],
    [⟨⟨"https://cdn.example.com/app.js", []⟩,
      ⟨[⟨"Content-Type", "application/javascript"⟩], ⟨some anomalyText, 0⟩⟩⟩]⟩⟩

/-- Claim C6 counterexample: the placeholder substituted for a missing body
is spelled `ADDED TEXT TO ANOMOLY` in the code, and its fingerprint differs
from the fingerprint of the claimed spelling `ADDED TEXT TO ANOMALY`. -/
theorem claim_C6_counterexample :
    c6e.response.content.text = none ∧
    (getJS c6doc).map (fun o => o.JSFiles.map (fun kv => kv.2.hash)) =
      some [fingerprint anomalyText] ∧
    anomalyText = "ADDED TEXT TO ANOMOLY" ∧
    fingerprint anomalyText = "c5c94fe63c9e1dd32c92ff6881afee64" ∧
    fingerprint "ADDED TEXT TO ANOMOLY" ≠ fingerprint "ADDED TEXT TO ANOMALY" := by
  refine ⟨rfl, by decide, rfl, by decide, by decide⟩

/-- Claim C6 (amended): a JavaScript entry (one matching header) whose body
text is absent does not make extraction fail: its canonical URL is recorded
in the dictionary and its record's hash is the fingerprint of the fixed
placeholder — which the source spells `ADDED TEXT TO ANOMOLY`. -/
theorem claim_C6 (doc : HarDoc) (p : Page) (ps : List Page) (out : GetJSOut)
    (hp : doc.pages = p :: ps) (hout : getJS doc = some out)
    (e : Entry) (he : e ∈ doc.entries) (htext : e.response.content.text = none)
    (hcount : countJS e = 1) :
    entryCanon (pageDomain p.title.data) e ∈ out.JSFiles.map Prod.fst ∧
    ∃ r, (entryRecord e).1 = some r ∧ r.hash = fingerprint anomalyText := by
  constructor
  · have hout2 := getJS_eq hp
    rw [hout] at hout2
    injection hout2 with hout3
    rw [hout3]
    apply processEntries_mem_canon (pageDomain p.title.data) doc.entries [] e he
    rw [entryRecord_single hcount]
    rfl
  · refine ⟨_, entryRecord_single hcount, ?_⟩
    show fingerprint (textOrPlaceholder e.response.content) = fingerprint anomalyText
    have ht : textOrPlaceholder e.response.content = anomalyText := by
      unfold textOrPlaceholder
      rw [htext]
    rw [ht]

/-- Claim C6 witness: the amended property on a concrete bodiless
JavaScript entry. -/
theorem claim_C6_witness :
    entryCanon (pageDomain "T".data) c6e ∈ c6out.JSFiles.map Prod.fst ∧
    ∃ r, (entryRecord c6e).1 = some r ∧ r.hash = fingerprint anomalyText :=
  claim_C6 c6doc ⟨"T", "D"⟩ [] c6out rfl (by decide) c6e (by decide) rfl (by decide)

def c8doc : HarDoc :=
  ⟨[⟨"T", "D"⟩],
   [⟨⟨"https://cdn.example.com/app.js", []⟩,
     ⟨[⟨"Content-Type", "application/javascript"⟩], ⟨none, 0⟩⟩⟩]⟩

/-- Claim C8 counterexample: extraction mutates its input — for a bodiless
JavaScript entry the placeholder is written into the entry's response
content, so the document after extraction differs from the document
before. -/
theorem claim_C8_counterexample :
    c8doc.entries.map (fun e => e.response.content.text) = [none] ∧
    (getJS c8doc).map GetJSOut.newDoc ≠ some c8doc ∧
    (getJS c8doc).map (fun o => o.newDoc.entries.map (fun e => e.response.content.text)) =
      some [some anomalyText] := by
  refine ⟨rfl, by decide, by decide⟩

/-- Claim C8 (amended): when no JavaScript entry lacks its body text (every
entry whose body is absent has no matching `content-type` header), the
document is unchanged by extraction. -/
theorem claim_C8 (doc : HarDoc) (out : GetJSOut) (hout : getJS doc = some out)
    (hbody : ∀ e ∈ doc.entries, e.response.content.text = none → countJS e = 0) :
    out.newDoc = doc := by
  cases hpages : doc.pages with
  | nil =>
    unfold getJS at hout
    rw [hpages] at hout
    simp at hout
  | cons p ps =>
    have hout2 := getJS_eq hpages
    rw [hout] at hout2
    injection hout2 with hout3
    rw [hout3]
    show HarDoc.mk doc.pages (processEntries (pageDomain p.title.data) doc.entries []).2 = doc
    rw [processEntries_entries_id (pageDomain p.title.data) doc.entries [] hbody]

/-- Claim C8 witness: a document whose single JavaScript entry has body
text `x` comes out of extraction unchanged. -/
theorem claim_C8_witness : c1out.newDoc = c1doc :=
  claim_C8 c1doc c1out (by decide) (by decide)

/-! ## Fingerprint collisions (claim C9)

The fingerprint is a 128-bit digest rendered in hex, so there are at most
`2^128` fingerprints; there are more than `2^128` distinct body texts of
35 letters drawn from `a`..`p`, so two distinct bodies share a
fingerprint. -/

/-- All four state words of the MD5 state lie below `2^32`. -/
def st32 (st : Nat × Nat × Nat × Nat) : Prop :=
  st.1 < 4294967296 ∧ st.2.1 < 4294967296 ∧ st.2.2.1 < 4294967296 ∧
    st.2.2.2 < 4294967296

theorem md5ProcessChunk_st32 (M : List Nat) (st : Nat × Nat × Nat × Nat) :
    st32 (md5ProcessChunk M st) := by
  obtain ⟨a0, b0, c0, d0⟩ := st
  unfold md5ProcessChunk
  rcases hfold : (List.range 64).foldl (md5Round M) (a0, b0, c0, d0) with ⟨a, b, c, d⟩
  exact ⟨Nat.mod_lt _ (by decide), Nat.mod_lt _ (by decide), Nat.mod_lt _ (by decide),
    Nat.mod_lt _ (by decide)⟩

theorem md5Chunks_st32 :
    ∀ (fuel : Nat) (bytes : List Nat) (st : Nat × Nat × Nat × Nat),
    st32 st → st32 (md5Chunks fuel bytes st) := by
  intro fuel
  induction fuel with
  | zero => intro bytes st h; exact h
  | succ fuel ih =>
    intro bytes st _
    show st32 (md5Chunks fuel (bytes.drop 64)
      (md5ProcessChunk (chunkWords (bytes.take 64)) st))
    exact ih _ _ (md5ProcessChunk_st32 _ _)

theorem md5Digest_st32 (msg : List Nat) : st32 (md5Digest msg) :=
  md5Chunks_st32 _ _ _ ⟨by decide, by decide, by decide, by decide⟩

/-- The MD5 state read as one number below `2^128`. -/
def digestNat (st : Nat × Nat × Nat × Nat) : Nat :=
  ((st.2.2.2 * 4294967296 + st.2.2.1) * 4294967296 + st.2.1) * 4294967296 + st.1

theorem digestNat_lt (msg : List Nat) :
    digestNat (md5Digest msg) < 340282366920938463463374607431768211456 := by
  obtain ⟨h1, h2, h3, h4⟩ := md5Digest_st32 msg
  unfold digestNat
  omega

/-- The hex rendering of a digest is a function of `digestNat` of its
state: equal packed digests give equal hex strings. -/
theorem md5Hex_eq_of_digestNat (m1 m2 : List Nat)
    (h : digestNat (md5Digest m1) = digestNat (md5Digest m2)) :
    md5Hex m1 = md5Hex m2 := by
  have hs1 := md5Digest_st32 m1
  have hs2 := md5Digest_st32 m2
  rcases he1 : md5Digest m1 with ⟨a1, b1, c1, d1⟩
  rcases he2 : md5Digest m2 with ⟨a2, b2, c2, d2⟩
  rw [he1] at hs1 h
  rw [he2] at hs2 h
  obtain ⟨ha1, hb1, hc1, hd1⟩ := hs1
  obtain ⟨ha2, hb2, hc2, hd2⟩ := hs2
  unfold digestNat at h
  dsimp only at h
  dsimp only [st32] at ha1 hb1 hc1 hd1 ha2 hb2 hc2 hd2
  have hA : a1 = a2 := by omega
  have hB : b1 = b2 := by omega
  have hC : c1 = c2 := by omega
  have hD : d1 = d2 := by omega
  unfold md5Hex
  rw [he1, he2, hA, hB, hC, hD]

/-- The `r`-th letter of `a`..`p`. -/
def encChar (r : Nat) : Char := "abcdefghijklmnop".data.getD r 'a'

/-- `k` letters encoding `n` in base 16, least significant first. -/
def encAux : Nat → Nat → List Char
  | 0, _ => []
  | k + 1, n => encChar (n % 16) :: encAux k (n / 16)

def decChar (c : Char) : Nat := c.toNat - 97

theorem decChar_encChar : ∀ r < 16, decChar (encChar r) = r := by decide

theorem encAux_inj : ∀ (k m n : Nat), m < 16 ^ k → n < 16 ^ k →
    encAux k m = encAux k n → m = n := by
  intro k
  induction k with
  | zero =>
    intro m n hm hn _
    rw [pow_zero] at hm hn
    omega
  | succ k ih =>
    intro m n hm hn h
    have hpow : (16 : Nat) ^ (k + 1) = 16 * 16 ^ k := by ring
    injection h with h1 h2
    have e1 : m % 16 = n % 16 := by
      have h3 := congrArg decChar h1
      rw [decChar_encChar _ (Nat.mod_lt _ (by decide)),
        decChar_encChar _ (Nat.mod_lt _ (by decide))] at h3
      exact h3
    have e2 : m / 16 = n / 16 :=
      ih (m / 16) (n / 16) (Nat.div_lt_of_lt_mul (hpow ▸ hm))
        (Nat.div_lt_of_lt_mul (hpow ▸ hn)) h2
    omega

/-- The packed digest of the encoded body of `n`. -/
def fpNat (n : Nat) : Nat := digestNat (md5Digest (utf8Encode (encAux 35 n)))

theorem fpNat_lt (n : Nat) :
    fpNat n < 340282366920938463463374607431768211456 :=
  digestNat_lt (utf8Encode (encAux 35 n))

/-- Claim C9 counterexample: the fingerprint is not injective — there exist
two distinct body texts with equal fingerprints, because there are more
35-letter bodies than 128-bit digests. -/
theorem claim_C9_counterexample :
    ∃ a b : String, a ≠ b ∧ fingerprint a = fingerprint b := by
  have hcard : Fintype.card (Fin 340282366920938463463374607431768211456) <
      Fintype.card (Fin (16 ^ 35)) := by
    simp only [Fintype.card_fin]
    decide
  obtain ⟨i, j, hne, heq⟩ := Fintype.exists_ne_map_eq_of_card_lt
    (fun i : Fin (16 ^ 35) =>
      (⟨fpNat i.val, fpNat_lt i.val⟩ :
        Fin 340282366920938463463374607431768211456)) hcard
  refine ⟨⟨encAux 35 i.val⟩, ⟨encAux 35 j.val⟩, ?_, ?_⟩
  · intro hstr
    apply hne
    apply Fin.ext
    apply encAux_inj 35 i.val j.val i.isLt j.isLt
    exact congrArg String.data hstr
  · have hd : digestNat (md5Digest (utf8Encode (encAux 35 i.val))) =
        digestNat (md5Digest (utf8Encode (encAux 35 j.val))) := congrArg Fin.val heq
    exact congrArg (fun l => (⟨l⟩ : String)) (md5Hex_eq_of_digestNat _ _ hd)

/-- Claim C9 (amended): fingerprint comparison is sound in one direction
only — differing fingerprints imply differing body texts (the converse,
claimed by the specification, fails by counting). -/
theorem claim_C9 (bodyA bodyB : String)
    (h : fingerprint bodyA ≠ fingerprint bodyB) : bodyA ≠ bodyB :=
  fun heq => h (by rw [heq])

/-- Claim C9 witness: the bodies `a` and `b` have differing fingerprints,
hence differ. -/
theorem claim_C9_witness :
    fingerprint "a" ≠ fingerprint "b" ∧ ("a" : String) ≠ "b" :=
  ⟨by decide, claim_C9 "a" "b" (by decide)⟩

end HarParse
